import Mathlib

/-!
# Verification of the `ultimate-history` tooling

Shallow embedding, in Lean 4, of the pure core of the `ultimate-history`
repository's Python tools:

* the date codec (`parse_date` / `format_date` in `tools/neo4j_query.py`),
* the reference codec (`parse_reference` / `format_reference` in
  `tools/utils.py` and `tools/validate_references.py`),
* the fuzzy name matcher (`fuzzy_match`, built on
  `difflib.SequenceMatcher.ratio`),
* the relationship-graph resolution (`RelationshipAnalyzer` in
  `tools/list_relationships.py` over the data model of `tools/model.py`),
* the reference validator (`ReferenceValidator` in
  `tools/validate_references.py`),
* the format validator and its auto-fix pass (`FormatValidator` in
  `tools/validate_format.py`),
* the tag taxonomy validator (`validate_tag` / `create_tag` in
  `tools/neo4j_query.py`).

Python strings are embedded as `List Char` (with `String` wrappers where
convenient); Python's `None`/values become `Option`; Python dicts become
association lists or update-folded functions, preserving insertion-order
iteration; floats (the similarity ratios) are modelled as exact rationals
`ℚ`.  Character-class predicates (`str.strip`, `\s`, `\d`, `str.lower`)
are modelled on the ASCII range, which covers every string the tools
handle in the repository's data.
-/

/-! ## Python string primitives -/

/-- Python whitespace (`str.strip`, regex `\s`), restricted to ASCII. -/
def pyIsSpace (c : Char) : Bool :=
  c = ' ' || c = '\t' || c = '\n' || c = '\r' || c = '\x0b' || c = '\x0c'

/-- Python `str.strip()`: drop leading and trailing whitespace. -/
def pyStrip (l : List Char) : List Char :=
  ((l.dropWhile pyIsSpace).reverse.dropWhile pyIsSpace).reverse

/-- Python `str.lower()` restricted to ASCII. -/
def pyLowerChar (c : Char) : Char :=
  if 'A' ≤ c ∧ c ≤ 'Z' then Char.ofNat (c.toNat + 32) else c

/-- Lowercase every character (`str.lower()` on ASCII text). -/
def pyLower (l : List Char) : List Char := l.map pyLowerChar

/-- Python truthiness of an `Optional[str]`: `None` and `""` are falsy. -/
def pyTruthy : Option (List Char) → Bool
  | none => false
  | some s => !s.isEmpty

/-- `String`-level wrapper for `pyStrip`. -/
def pyStripS (s : String) : String := (pyStrip s.data).asString

/-- `String`-level wrapper for `pyLower`. -/
def pyLowerS (s : String) : String := (pyLower s.data).asString

/-! ## Date codec (`tools/neo4j_query.py`, `parse_date` / `format_date`) -/

/-- The decimal digit character for `d < 10`, as used by Python's `str(int)`. -/
def digitChar : Nat → Char
  | 0 => '0' | 1 => '1' | 2 => '2' | 3 => '3' | 4 => '4'
  | 5 => '5' | 6 => '6' | 7 => '7' | 8 => '8' | _ => '9'

/-- Little-endian decimal digits of `n`; the fuel argument makes the
recursion structural (any fuel `≥ n` gives the exact digits). -/
def natDigitsAux : Nat → Nat → List Char
  | 0, _ => []
  | fuel + 1, n => if n = 0 then [] else digitChar (n % 10) :: natDigitsAux fuel (n / 10)

/-- Decimal digit string of a natural number, most significant first
(Python `str(n)` for `n ≥ 0`). -/
def natDigits (n : Nat) : List Char :=
  if n = 0 then ['0'] else (natDigitsAux n n).reverse

/-- Helper for thousand separators: walks the digit list least-significant
first and inserts `','` after every completed group of three digits. -/
def commaGroupRev : Nat → List Char → List Char
  | _, [] => []
  | k, c :: cs =>
    if k = 3 then ',' :: c :: commaGroupRev 1 cs
    else c :: commaGroupRev (k + 1) cs

/-- Python `f"{n:,}"`: decimal rendering with `','` thousand separators. -/
def commaSeparated (n : Nat) : List Char :=
  (commaGroupRev 0 (natDigits n).reverse).reverse

/-- Numeric value of a list of decimal digit characters. -/
def digitsVal (l : List Char) : Nat :=
  l.foldl (fun acc c => acc * 10 + (c.toNat - 48)) 0

/-- The canonical BCE suffix `" BCE"`. -/
def bceSuffix : List Char := [' ', 'B', 'C', 'E']

/-- The canonical approximation prefix `"c. "`. -/
def circaPrefix : List Char := ['c', '.', ' ']

/-- Python `int(s)`: strips surrounding whitespace, allows one optional
sign, then requires a nonempty run of decimal digits.  (Underscore digit
grouping, accepted by CPython, never occurs in this repository's data and
is not modelled.)  `none` models the `ValueError` raised otherwise. -/
def pyInt (s : List Char) : Option Int :=
  match pyStrip s with
  | [] => none
  | a :: rest =>
    if a = '-' then
      if rest ≠ [] ∧ rest.all Char.isDigit then some (-(digitsVal rest : Int)) else none
    else if a = '+' then
      if rest ≠ [] ∧ rest.all Char.isDigit then some (digitsVal rest : Int) else none
    else
      if (a :: rest).all Char.isDigit then some (digitsVal (a :: rest) : Int) else none

/-- `parse_date` (`tools/neo4j_query.py` lines 26–55).  Returns
`some (year, approximate)`; `some (none, none)` for blank input;
`none` models the `ValueError` escaping from `int(...)`. -/
def parse_date (s : List Char) : Option (Option Int × Option Bool) :=
  if (pyStrip s).isEmpty then some (none, none)
  else
    let t := pyStrip s
    let approximate := circaPrefix.isPrefixOf t
    let t := if approximate then t.drop 3 else t
    -- date_str.replace(",", "")
    let t := t.filter (fun c => !(c = ','))
    let bce := bceSuffix.isSuffixOf t
    let t := if bce then t.take (t.length - 4) else t
    match pyInt t with
    | none => none
    | some y => some (some (if bce then -y else y), some approximate)

/-- `format_date` (`tools/neo4j_query.py` lines 58–84). -/
def format_date (year : Option Int) (approximate : Bool) : List Char :=
  match year with
  | none => []
  | some y =>
    let bce := y < 0
    let absYear := y.natAbs
    let yearStr := if absYear ≥ 10000 then commaSeparated absYear else natDigits absYear
    let yearStr := if bce then yearStr ++ bceSuffix else yearStr
    if approximate then circaPrefix ++ yearStr else yearStr

/-! ### Date codec lemmas -/

theorem digitChar_isDigit {d : Nat} (h : d < 10) : (digitChar d).isDigit := by
  interval_cases d <;> decide

theorem digitChar_toNat {d : Nat} (h : d < 10) : (digitChar d).toNat - 48 = d := by
  interval_cases d <;> decide

theorem natDigitsAux_eq {fuel n : Nat} (h : n ≤ fuel) :
    natDigitsAux fuel n = (Nat.digits 10 n).map digitChar := by
  induction fuel generalizing n with
  | zero =>
    interval_cases n
    simp [natDigitsAux]
  | succ fuel ih =>
    unfold natDigitsAux
    by_cases hn : n = 0
    · simp [hn]
    · rw [if_neg hn, Nat.digits_def' (by norm_num : (1 : Nat) < 10)
        (Nat.pos_of_ne_zero hn), List.map_cons, ih]
      exact Nat.le_of_lt_succ (Nat.lt_of_lt_of_le
        (Nat.div_lt_self (Nat.pos_of_ne_zero hn) (by norm_num)) h)

/-- `natDigits` agrees with the mathematical base-10 digit expansion. -/
theorem natDigits_eq (n : Nat) :
    natDigits n = if n = 0 then ['0']
      else ((Nat.digits 10 n).map digitChar).reverse := by
  unfold natDigits
  by_cases hn : n = 0
  · simp [hn]
  · rw [if_neg hn, if_neg hn, natDigitsAux_eq (Nat.le_refl n)]

theorem natDigits_ne_nil (n : Nat) : natDigits n ≠ [] := by
  rw [natDigits_eq]
  split
  · simp
  · rename_i h
    simp only [ne_eq, List.reverse_eq_nil_iff, List.map_eq_nil_iff]
    exact Nat.digits_ne_nil_iff_ne_zero.mpr h

theorem natDigits_all_digit (n : Nat) : ∀ c ∈ natDigits n, c.isDigit := by
  intro c hc
  rw [natDigits_eq] at hc
  split at hc
  · simp at hc; subst hc; decide
  · simp only [List.mem_reverse, List.mem_map] at hc
    obtain ⟨d, hd, rfl⟩ := hc
    exact digitChar_isDigit (Nat.digits_lt_base (by norm_num) hd)

theorem digitsVal_natDigits (n : Nat) : digitsVal (natDigits n) = n := by
  rw [natDigits_eq]
  split
  · simp_all [digitsVal]
  · rename_i h
    unfold digitsVal
    rw [List.foldl_reverse]
    have : ∀ ds : List Nat, (∀ d ∈ ds, d < 10) →
        (ds.map digitChar).foldr (fun c acc => acc * 10 + (c.toNat - 48)) 0
          = Nat.ofDigits 10 ds := by
      intro ds
      induction ds with
      | nil => intro _; simp [Nat.ofDigits]
      | cons d ds ih =>
        intro hlt
        simp only [List.map_cons, List.foldr_cons, Nat.ofDigits_cons]
        rw [ih (fun x hx => hlt x (List.mem_cons_of_mem _ hx)),
            digitChar_toNat (hlt d (List.mem_cons_self _ _))]
        ring
    rw [this _ (fun d hd => Nat.digits_lt_base (by norm_num) hd),
        Nat.ofDigits_digits]

theorem commaGroupRev_filter (l : List Char) :
    ∀ k, (commaGroupRev k l).filter (fun c => !(c = ','))
      = l.filter (fun c => !(c = ',')) := by
  induction l with
  | nil => intro k; simp [commaGroupRev]
  | cons c cs ih =>
    intro k
    unfold commaGroupRev
    split <;> simp [List.filter, ih]

theorem mem_commaGroupRev {c : Char} {l : List Char} {k : Nat}
    (h : c ∈ commaGroupRev k l) : c ∈ l ∨ c = ',' := by
  induction l generalizing k with
  | nil => simp [commaGroupRev] at h
  | cons x xs ih =>
    unfold commaGroupRev at h
    split at h
    · simp only [List.mem_cons] at h
      rcases h with h | h | h
      · right; exact h
      · left; simp [h]
      · rcases ih h with h' | h'
        · left; exact List.mem_cons_of_mem _ h'
        · right; exact h'
    · simp only [List.mem_cons] at h
      rcases h with h | h
      · left; simp [h]
      · rcases ih h with h' | h'
        · left; exact List.mem_cons_of_mem _ h'
        · right; exact h'

theorem mem_commaSeparated {c : Char} {n : Nat} (h : c ∈ commaSeparated n) :
    c ∈ natDigits n ∨ c = ',' := by
  unfold commaSeparated at h
  rw [List.mem_reverse] at h
  rcases mem_commaGroupRev h with h' | h'
  · left; rwa [List.mem_reverse] at h'
  · right; exact h'

theorem commaSeparated_filter (n : Nat) :
    (commaSeparated n).filter (fun c => !(c = ',')) = natDigits n := by
  unfold commaSeparated
  rw [List.filter_reverse, commaGroupRev_filter, ← List.filter_reverse,
      List.reverse_reverse]
  apply List.filter_eq_self.mpr
  intro c hc
  have := natDigits_all_digit n c hc
  simp only [Bool.not_eq_true', decide_eq_false_iff_not]
  intro h
  subst h
  simp [Char.isDigit] at this

theorem commaSeparated_ne_nil (n : Nat) : commaSeparated n ≠ [] := by
  intro h
  have := commaSeparated_filter n
  rw [h] at this
  exact natDigits_ne_nil n this.symm

theorem dropWhile_eq_self_of_head {p : Char → Bool} {l : List Char}
    (h : ∀ c, l.head? = some c → p c = false) : l.dropWhile p = l := by
  cases l with
  | nil => rfl
  | cons a t =>
    rw [List.dropWhile_cons, h a rfl]
    simp

theorem pyStrip_eq_self {l : List Char}
    (h1 : ∀ c, l.head? = some c → pyIsSpace c = false)
    (h2 : ∀ c, l.getLast? = some c → pyIsSpace c = false) : pyStrip l = l := by
  unfold pyStrip
  rw [dropWhile_eq_self_of_head h1, dropWhile_eq_self_of_head
    (by intro c hc; exact h2 c (by rwa [List.head?_reverse] at hc)),
    List.reverse_reverse]

theorem digit_not_space {c : Char} (h : c.isDigit) : pyIsSpace c = false := by
  simp only [Char.isDigit, decide_eq_true_eq] at h
  simp only [pyIsSpace, Bool.or_eq_false_iff, decide_eq_false_iff_not]
  refine ⟨⟨⟨⟨⟨?_, ?_⟩, ?_⟩, ?_⟩, ?_⟩, ?_⟩ <;>
    · intro hc; subst hc; revert h; decide

theorem comma_not_space : pyIsSpace ',' = false := by decide

/-- The visible digit block of `format_date` (digits, with separators for
magnitudes ≥ 10000): every character is a digit or a comma. -/
theorem yearStr_mem {n : Nat} {c : Char}
    (h : c ∈ (if n ≥ 10000 then commaSeparated n else natDigits n)) :
    c.isDigit ∨ c = ',' := by
  split at h
  · rcases mem_commaSeparated h with h' | h'
    · exact Or.inl (natDigits_all_digit _ _ h')
    · exact Or.inr h'
  · exact Or.inl (natDigits_all_digit _ _ h)

theorem yearStr_ne_nil (n : Nat) :
    (if n ≥ 10000 then commaSeparated n else natDigits n) ≠ [] := by
  split
  · exact commaSeparated_ne_nil n
  · exact natDigits_ne_nil n

theorem yearStr_filter (n : Nat) :
    (if n ≥ 10000 then commaSeparated n else natDigits n).filter
      (fun c => !(c = ',')) = natDigits n := by
  split
  · exact commaSeparated_filter n
  · apply List.filter_eq_self.mpr
    intro c hc
    have := natDigits_all_digit n c hc
    simp only [Bool.not_eq_true', decide_eq_false_iff_not]
    intro h; subst h; simp [Char.isDigit] at this

theorem yearStr_not_space {n : Nat} {c : Char}
    (h : c ∈ (if n ≥ 10000 then commaSeparated n else natDigits n)) :
    pyIsSpace c = false := by
  rcases yearStr_mem h with h' | h'
  · exact digit_not_space h'
  · subst h'; exact comma_not_space

theorem pyInt_digits {l : List Char} (hne : l ≠ []) (hd : ∀ c ∈ l, c.isDigit) :
    pyInt l = some (digitsVal l : Int) := by
  unfold pyInt
  have hstrip : pyStrip l = l := by
    apply pyStrip_eq_self
    · intro c hc
      exact digit_not_space (hd c (List.mem_of_mem_head? hc))
    · intro c hc
      exact digit_not_space (hd c (List.mem_of_mem_getLast? hc))
  rw [hstrip]
  cases l with
  | nil => exact absurd rfl hne
  | cons a t =>
    have ha : a.isDigit := hd a (List.mem_cons_self _ _)
    have hne1 : ¬(a = '-') := by intro h; subst h; revert ha; decide
    have hne2 : ¬(a = '+') := by intro h; subst h; revert ha; decide
    simp only [hne1, hne2, if_false, ite_false, if_neg]
    rw [if_pos (List.all_eq_true.mpr hd)]

theorem parse_date_canonical (n : Nat) (bce approx : Bool) :
    parse_date ((cond approx circaPrefix []) ++
        ((if n ≥ 10000 then commaSeparated n else natDigits n) ++
          (cond bce bceSuffix []))) =
      some (some (cond bce (-(n : Int)) (n : Int)), some approx) := by
  have hBne := yearStr_ne_nil n
  have hBfilter := yearStr_filter n
  have hDne := natDigits_ne_nil n
  have hDdig := natDigits_all_digit n
  have hBmem : ∀ c ∈ (if n ≥ 10000 then commaSeparated n else natDigits n),
      c.isDigit ∨ c = ',' := fun _ h => yearStr_mem h
  generalize hB : (if n ≥ 10000 then commaSeparated n else natDigits n) = B at *
  obtain ⟨b, bs, rfl⟩ := List.exists_cons_of_ne_nil hBne
  have hbmem : b.isDigit ∨ b = ',' := hBmem b (List.mem_cons_self _ _)
  have hbspace : pyIsSpace b = false := by
    rcases hbmem with h | h
    · exact digit_not_space h
    · subst h; exact comma_not_space
  have hbc : ¬(b = 'c') := by
    rcases hbmem with h | h
    · intro hc; subst hc; revert h; decide
    · intro hc; rw [hc] at h; revert h; decide
  -- last character of the digit block is a digit or comma, hence no space
  have hlastB : ∀ c, (b :: bs).getLast? = some c → pyIsSpace c = false := by
    intro c hc
    have hm : c ∈ b :: bs := List.mem_of_mem_getLast? (Option.mem_def.mpr hc)
    rcases hBmem c hm with h | h
    · exact digit_not_space h
    · subst h; exact comma_not_space
  have hEfalse : bceSuffix.isSuffixOf (natDigits n) = false := by
    apply Bool.eq_false_iff.mpr
    intro h
    have hsub := (List.isSuffixOf_iff_suffix.mp h).subset
    have hE : 'E' ∈ natDigits n := hsub (by decide)
    have := hDdig 'E' hE
    revert this; decide
  have hEtrue : bceSuffix.isSuffixOf (natDigits n ++ bceSuffix) = true :=
    List.isSuffixOf_iff_suffix.mpr (List.suffix_append _ _)
  have hEtake : (natDigits n ++ bceSuffix).take
      ((natDigits n ++ bceSuffix).length - 4) = natDigits n := by
    apply List.take_left'
    simp [bceSuffix]
  have hEfilter : List.filter (fun c => !(c = ',')) bceSuffix = bceSuffix := by
    decide
  have hInt : pyInt (natDigits n) = some (n : Int) := by
    rw [pyInt_digits hDne hDdig, digitsVal_natDigits]
  -- prefix test on a string that starts with the digit block
  have hNoCirca : ∀ t, circaPrefix.isPrefixOf ((b :: bs) ++ t) = false := by
    intro t
    apply Bool.eq_false_iff.mpr
    intro h
    obtain ⟨u, hu⟩ := List.isPrefixOf_iff_prefix.mp h
    simp only [circaPrefix, List.cons_append, List.cons.injEq] at hu
    exact hbc hu.1.symm
  cases bce with
  | true =>
    cases approx with
    | true =>
      show parse_date (circaPrefix ++ ((b :: bs) ++ bceSuffix)) =
        some (some (-(n : Int)), some true)
      have hstrip : pyStrip (circaPrefix ++ ((b :: bs) ++ bceSuffix)) =
          circaPrefix ++ ((b :: bs) ++ bceSuffix) := by
        apply pyStrip_eq_self
        · intro c hc
          simp only [circaPrefix, List.cons_append, List.head?_cons,
            Option.some.injEq] at hc
          subst hc; decide
        · intro c hc
          rw [List.getLast?_append, List.getLast?_append,
            (by decide : bceSuffix.getLast? = some 'E'), Option.or_some,
            Option.or_some, Option.some.injEq] at hc
          subst hc; decide
      simp only [parse_date, hstrip]
      rw [if_neg (by simp [circaPrefix])]
      have hpre : circaPrefix.isPrefixOf
          (circaPrefix ++ ((b :: bs) ++ bceSuffix)) = true :=
        List.isPrefixOf_iff_prefix.mpr (List.prefix_append _ _)
      rw [hpre]
      simp only [if_pos trivial]
      rw [List.drop_left' (by rfl : circaPrefix.length = 3)]
      rw [List.filter_append, hBfilter, hEfilter, hEtrue]
      simp only [if_pos trivial]
      rw [hEtake, hInt]
    | false =>
      show parse_date ((b :: bs) ++ bceSuffix) =
        some (some (-(n : Int)), some false)
      have hstrip : pyStrip ((b :: bs) ++ bceSuffix) = (b :: bs) ++ bceSuffix := by
        apply pyStrip_eq_self
        · intro c hc
          rw [List.head?_append, List.head?_cons, Option.or_some,
            Option.some.injEq] at hc
          subst hc; exact hbspace
        · intro c hc
          rw [List.getLast?_append,
            (by decide : bceSuffix.getLast? = some 'E'), Option.or_some,
            Option.some.injEq] at hc
          subst hc; decide
      simp only [parse_date, hstrip]
      rw [if_neg (by simp)]
      rw [hNoCirca bceSuffix]
      simp only [Bool.false_eq_true, if_false]
      rw [List.filter_append, hBfilter, hEfilter, hEtrue]
      simp only [if_pos trivial]
      rw [hEtake, hInt]
  | false =>
    cases approx with
    | true =>
      show parse_date (circaPrefix ++ ((b :: bs) ++ [])) =
        some (some (n : Int), some true)
      rw [List.append_nil]
      have hstrip : pyStrip (circaPrefix ++ (b :: bs)) =
          circaPrefix ++ (b :: bs) := by
        apply pyStrip_eq_self
        · intro c hc
          simp only [circaPrefix, List.cons_append, List.head?_cons,
            Option.some.injEq] at hc
          subst hc; decide
        · intro c hc
          rw [List.getLast?_append,
            List.getLast?_eq_getLast _ (List.cons_ne_nil b bs),
            Option.or_some] at hc
          exact hlastB c (by
            rw [List.getLast?_eq_getLast _ (List.cons_ne_nil b bs)]
            exact hc)
      simp only [parse_date, hstrip]
      rw [if_neg (by simp [circaPrefix])]
      have hpre : circaPrefix.isPrefixOf (circaPrefix ++ (b :: bs)) = true :=
        List.isPrefixOf_iff_prefix.mpr (List.prefix_append _ _)
      rw [hpre]
      simp only [if_pos trivial]
      rw [List.drop_left' (by rfl : circaPrefix.length = 3)]
      rw [hBfilter, hEfalse]
      simp only [Bool.false_eq_true, if_false]
      rw [hInt]
    | false =>
      show parse_date ((b :: bs) ++ []) = some (some (n : Int), some false)
      rw [List.append_nil]
      have hstrip : pyStrip (b :: bs) = b :: bs := by
        apply pyStrip_eq_self
        · intro c hc
          rw [List.head?_cons, Option.some.injEq] at hc
          subst hc; exact hbspace
        · intro c hc
          exact hlastB c hc
      unfold parse_date
      rw [hstrip]
      rw [if_neg (by simp)]
      have hNoCirca2 : circaPrefix.isPrefixOf (b :: bs) = false := by
        have := hNoCirca []
        rwa [List.append_nil] at this
      simp only []
      rw [hNoCirca2]
      simp only [Bool.false_eq_true, if_false]
      rw [hBfilter, hEfalse]
      simp only [Bool.false_eq_true, if_false]
      rw [hInt]

/-- `format_date` output, rewritten into prefix/digits/suffix shape. -/
theorem format_date_eq (y : Int) (a : Bool) :
    format_date (some y) a = (cond a circaPrefix []) ++
      ((if y.natAbs ≥ 10000 then commaSeparated y.natAbs else natDigits y.natAbs) ++
        (cond (decide (y < 0)) bceSuffix [])) := by
  unfold format_date
  by_cases hy : y < 0 <;> cases a <;> simp [hy]

/-- C1 — Date codec round-trip: for every year (as `Int`, BCE negative)
and boolean approximation flag, `parse_date (format_date year approx)`
returns exactly `(year, approx)`; and the two concrete examples
`parse_date "c. 1,700,000 BCE" = (-1700000, True)` and
`format_date (-1700000) True = "c. 1,700,000 BCE"` hold. -/
theorem C1_date_codec_roundtrip :
    (∀ (y : Int) (a : Bool),
        parse_date (format_date (some y) a) = some (some y, some a)) ∧
    parse_date ("c. 1,700,000 BCE".data) = some (some (-1700000), some true) ∧
    format_date (some (-1700000)) true = "c. 1,700,000 BCE".data := by
  refine ⟨?_, by decide, by decide⟩
  intro y a
  rw [format_date_eq, parse_date_canonical y.natAbs (decide (y < 0)) a]
  by_cases hy : y < 0
  · rw [decide_eq_true hy]
    show some (some (-(y.natAbs : Int)), some a) = some (some y, some a)
    have h : -(y.natAbs : Int) = y := by omega
    rw [h]
  · rw [decide_eq_false hy]
    show some (some ((y.natAbs : Int)), some a) = some (some y, some a)
    have h : ((y.natAbs : Int)) = y := by omega
    rw [h]

/-! ## Reference codec (`tools/utils.py`, `parse_reference` / `format_reference`) -/

/-- Index of the last character satisfying `p` (used for the last regex
match of `":\s*"`, whose matches start exactly at the `':'` positions). -/
def lastIdxOf (p : Char → Bool) (s : List Char) : Option Nat :=
  match s.reverse.findIdx? p with
  | some i => some (s.length - 1 - i)
  | none => none

/-- En- or em-dash (the separator class `[–—]`). -/
def isEnEmDash (c : Char) : Bool := c = '–' || c = '—'

/-- Any dash accepted inside a date group (the class `[–—-]`). -/
def isDashChar (c : Char) : Bool := c = '–' || c = '—' || c = '-'

/-- Start index of the last match of `"[–—]\s+"`: the last en/em dash that
is immediately followed by a whitespace character (every such dash starts
a match, and matches cannot overlap). -/
def sepDashIdx (s : List Char) : Option Nat :=
  ((List.range s.length).filter (fun j =>
    isEnEmDash (s.getD j ' ') && decide (j + 1 < s.length) &&
      pyIsSpace (s.getD (j + 1) 'x'))).getLast?

/-- `(start, end)` span of the last separator match, mirroring the loop
over `[r":\s*", r"[–—]\s+"]` in `parse_reference`: all matches of the
first pattern that has any, last match taken, with the trailing greedy
whitespace included in the span. -/
def findSeparator (s : List Char) : Option (Nat × Nat) :=
  match lastIdxOf (fun c => c = ':') s with
  | some i => some (i, i + 1 + ((s.drop (i + 1)).takeWhile pyIsSpace).length)
  | none =>
    match sepDashIdx s with
    | some j => some (j, j + 1 + ((s.drop (j + 1)).takeWhile pyIsSpace).length)
    | none => none

/-- First `')'` at index `≥ start`, if any. -/
def findCloseParen (s : List Char) (start : Nat) : Option Nat :=
  match (s.drop start).findIdx? (fun c => c = ')') with
  | some k => some (start + k)
  | none => none

/-- Scanning semantics of `re.finditer(r"\(([^)]+)\)", s)`: at each `'('`
the greedy `[^)]+` runs to the first later `')'` and needs at least one
character; scanning resumes after a match, or one character further after
a failed attempt.  The scan position increases strictly, so fuel
`s.length + 1` never runs out. -/
def parenScan : Nat → Nat → List Char → List (Nat × List Char)
  | 0, _, _ => []
  | fuel + 1, i, s =>
    if i < s.length then
      if s.getD i ' ' = '(' then
        match findCloseParen s (i + 1) with
        | some j =>
          if i + 1 < j then
            (i, (s.drop (i + 1)).take (j - (i + 1))) :: parenScan fuel (j + 1) s
          else parenScan fuel (i + 1) s
        | none => parenScan fuel (i + 1) s
      else parenScan fuel (i + 1) s
    else []

/-- All matches of `\(([^)]+)\)` as `(start index, group 1)` pairs. -/
def parenMatches (s : List Char) : List (Nat × List Char) :=
  parenScan (s.length + 1) 0 s

/-- `re.split(r"\s*[–—-]\s*", s)` splits at each single dash character
(the surrounding `\s*` only trims whitespace that the callers' `.strip()`
removes again, so segments are returned raw here and stripped at use
sites; the part count is the dash count plus one either way). -/
def splitOnDash (s : List Char) : List (List Char) :=
  s.foldr
    (fun c acc =>
      match acc with
      | [] => [[c]]
      | p :: ps => if isDashChar c then [] :: p :: ps else (c :: p) :: ps)
    [[]]

/-- The head left of the last separator match (stripped), or the whole
string when no separator matches. -/
def beforeSepOf (value : List Char) : List Char :=
  match findSeparator value with
  | some (s0, _) => pyStrip (value.take s0)
  | none => value

/-- The relationship text right of the last separator match (stripped). -/
def relationshipOf (value : List Char) : Option (List Char) :=
  match findSeparator value with
  | some (_, e0) => some (pyStrip (value.drop e0))
  | none => none

/-- `parse_reference` (`tools/utils.py` lines 10–78).
Returns `(name, date1, date2, relationship)`. -/
def parse_reference (value : List Char) :
    List Char × Option (List Char) × Option (List Char) × Option (List Char) :=
  if (pyStrip value).isEmpty then ([], none, none, none)
  else
    let value := pyStrip value
    let before_sep := beforeSepOf value
    let relationship := relationshipOf value
    match (parenMatches before_sep).getLast? with
    | some (start, datesStr) =>
      if datesStr.any Char.isDigit then
        match splitOnDash datesStr with
        | [d1] =>
          (pyStrip (before_sep.take start), some (pyStrip d1), none, relationship)
        | [d1, d2] =>
          (pyStrip (before_sep.take start), some (pyStrip d1),
            some (pyStrip d2), relationship)
        | _ => (value, none, none, none)
      else (before_sep, none, none, relationship)
    | none => (before_sep, none, none, relationship)

/-- `format_reference` (`tools/utils.py` lines 81–96). -/
def format_reference (name : List Char) (date1 date2 relationship :
    Option (List Char)) : List Char :=
  let result := name
  let result :=
    if pyTruthy date1 then
      if pyTruthy date2 then
        result ++ [' ', '('] ++ date1.getD [] ++ ['–'] ++ date2.getD [] ++ [')']
      else
        result ++ [' ', '('] ++ date1.getD [] ++ [')']
    else result
  if pyTruthy relationship then result ++ [':', ' '] ++ relationship.getD []
  else result

namespace RV

/-- `ReferenceValidator.parse_reference` (`tools/validate_references.py`
lines 92–160); its body is line-for-line the same algorithm as
`utils.parse_reference`, so the embedding delegates to the same steps. -/
def parse_reference (value : List Char) :
    List Char × Option (List Char) × Option (List Char) × Option (List Char) :=
  if (pyStrip value).isEmpty then ([], none, none, none)
  else
    let value := pyStrip value
    let before_sep := beforeSepOf value
    let relationship := relationshipOf value
    match (parenMatches before_sep).getLast? with
    | some (start, datesStr) =>
      if datesStr.any Char.isDigit then
        match splitOnDash datesStr with
        | [d1] =>
          (pyStrip (before_sep.take start), some (pyStrip d1), none, relationship)
        | [d1, d2] =>
          (pyStrip (before_sep.take start), some (pyStrip d1),
            some (pyStrip d2), relationship)
        | _ => (value, none, none, none)
      else (before_sep, none, none, relationship)
    | none => (before_sep, none, none, relationship)

/-- `ReferenceValidator.format_reference` (`tools/validate_references.py`
lines 162–178), character-for-character the body of
`utils.format_reference`. -/
def format_reference (name : List Char) (date1 date2 relationship :
    Option (List Char)) : List Char :=
  let result := name
  let result :=
    if pyTruthy date1 then
      if pyTruthy date2 then
        result ++ [' ', '('] ++ date1.getD [] ++ ['–'] ++ date2.getD [] ++ [')']
      else
        result ++ [' ', '('] ++ date1.getD [] ++ [')']
    else result
  if pyTruthy relationship then result ++ [':', ' '] ++ relationship.getD []
  else result

end RV

/-- The two `parse_reference` implementations coincide. -/
theorem RV_parse_reference_eq :
    RV.parse_reference = parse_reference := rfl

/-- The two `format_reference` implementations coincide. -/
theorem RV_format_reference_eq :
    RV.format_reference = format_reference := rfl

/-- C2 — the bracketed-name example decodes with the *last*
digit-bearing parenthesized group as the date group. -/
theorem C2_parse_reference_nested_parens :
    parse_reference "Unification of Italy (Risorgimento) (1848–1871): led to".data =
      ("Unification of Italy (Risorgimento)".data,
        some "1848".data, some "1871".data, some "led to".data) := by
  decide

/-- C10 — `format_reference` emits a date group only when `date1` is
truthy, so with `date1 = None` any second date is silently dropped: the
encoding equals the one with no dates at all.  Proved for both copies of
the function (`utils.py` and `validate_references.py`). -/
theorem C10_format_reference_drops_date2 (name d2 : List Char)
    (rel : Option (List Char)) :
    format_reference name none (some d2) rel =
        format_reference name none none rel ∧
      RV.format_reference name none (some d2) rel =
        RV.format_reference name none none rel := by
  constructor <;> rfl

/-! ## Tag taxonomy (`tools/neo4j_query.py`, `validate_tag` / `create_tag`) -/

/-- Leftmost index at which `sep` occurs in `s`, if any. -/
def findSubstrIdx (sep s : List Char) : Option Nat :=
  (List.range (s.length + 1)).find? (fun i => sep.isPrefixOf (s.drop i))

/-- Fuelled worker for `pySplit` (each found separator removes at least
one character, so fuel `s.length + 1` is enough for a nonempty `sep`). -/
def pySplitAux (sep : List Char) : Nat → List Char → List (List Char)
  | 0, s => [s]
  | fuel + 1, s =>
    match findSubstrIdx sep s with
    | some i => s.take i :: pySplitAux sep fuel (s.drop (i + sep.length))
    | none => [s]

/-- Python `s.split(sep)` for a nonempty separator: split at each
leftmost, non-overlapping occurrence. -/
def pySplit (sep s : List Char) : List (List Char) :=
  pySplitAux sep (s.length + 1) s

/-- Python substring test `sub in s` (Boolean). -/
def listIsInfixOf (sub s : List Char) : Bool := (findSubstrIdx sub s).isSome

/-- An apostrophe character, used when assembling error messages. -/
def apos : Char := '\''

/-- `VALID_REGIONS` (`tools/neo4j_query.py` lines 870–877), in insertion
order: continent to sub-region list. -/
def VALID_REGIONS : List (List Char × List (List Char)) :=
  [("Europe".data, ["Western".data, "Eastern".data, "Northern".data,
      "Southern".data, "Central".data]),
   ("Asia".data, ["East".data, "Southeast".data, "South".data,
      "Central".data, "West".data]),
   ("Africa".data, ["North".data, "West".data, "East".data,
      "Central".data, "Southern".data]),
   ("Americas".data, ["North".data, "Central".data, "South".data,
      "Caribbean".data]),
   ("Oceania".data, ["Australia".data, "Pacific".data]),
   ("Global".data, [])]

/-- `VALID_THEMES` (`tools/neo4j_query.py` lines 880–888). -/
def VALID_THEMES : List (List Char) :=
  ["War".data, "Politics".data, "Economy".data, "Society".data,
   "Culture".data, "Science".data, "Religion".data]

/-- `", ".join(...)` over a list of strings. -/
def joinComma (l : List (List Char)) : List Char :=
  List.intercalate ", ".data l

/-- `validate_tag` (`tools/neo4j_query.py` lines 891–955): returns
`(is_valid, error_message)`. -/
def validate_tag (tag : List Char) : Bool × List Char :=
  if !("UH::".data.isPrefixOf tag) then
    (false, "Tag must start with 'UH::'".data)
  else
    let parts := pySplit "::".data tag
    if parts.length < 3 then
      (false, "Tag must have at least 3 parts (e.g., UH::Region::Europe)".data)
    else
      let category := parts.getD 1 []
      if category = "Region".data then
        if parts.length < 3 ∨ parts.length > 4 then
          (false, ("Region tags must be UH::Region::<continent> or " ++
            "UH::Region::<continent>::<sub-region>").data)
        else
          let continent := parts.getD 2 []
          match (VALID_REGIONS.find? (fun p => p.1 = continent)) with
          | none =>
            (false, "Unknown continent ".data ++ [apos] ++ continent ++ [apos] ++
              ". Valid: ".data ++ joinComma (VALID_REGIONS.map Prod.fst))
          | some p =>
            if parts.length = 4 then
              let subRegion := parts.getD 3 []
              if p.2.isEmpty then
                (false, [apos] ++ continent ++ [apos] ++ " has no sub-regions".data)
              else if !(p.2.contains subRegion) then
                (false, "Unknown sub-region ".data ++ [apos] ++ subRegion ++
                  [apos] ++ " for ".data ++ continent ++ ". Valid: ".data ++
                  joinComma p.2)
              else (true, [])
            else (true, [])
      else if category = "Period".data then
        if parts.length ≠ 3 then
          (false, "Period tags must be UH::Period::<period>".data)
        else
          let period := parts.getD 2 []
          if period = "Prehistory".data then (true, [])
          else if listIsInfixOf "_Millennium_BCE".data period ∨
              listIsInfixOf "_Century".data period then (true, [])
          else
            (false, "Invalid period ".data ++ [apos] ++ period ++ [apos] ++
              (". Use format like '19th_Century', '5th_Century_BCE', or " ++
                "'Prehistory'").data)
      else if category = "Theme".data then
        if parts.length ≠ 3 then
          (false, "Theme tags must be UH::Theme::<theme>".data)
        else
          let theme := parts.getD 2 []
          if !(VALID_THEMES.contains theme) then
            (false, "Unknown theme ".data ++ [apos] ++ theme ++ [apos] ++
              ". Valid: ".data ++ joinComma VALID_THEMES ++
              ". New themes require discussion.".data)
          else (true, [])
      else
        (false, "Unknown category ".data ++ [apos] ++ category ++ [apos] ++
          ". Valid: Region, Period, Theme".data)

/-- Outcome of `create_tag` (`tools/neo4j_query.py` lines 968–998); the
database round trips are reduced to membership in the existing tag set. -/
inductive CreateTagResult
  | refusedTheme
  | invalidTag (msg : List Char)
  | alreadyExists
  | created
deriving DecidableEq

/-- `create_tag`: Theme tags are refused outright (`sys.exit(1)`) before
any validation; then format validation; then the duplicate check; then
the node is created. -/
def create_tag (existing : List (List Char)) (tag : List Char) :
    CreateTagResult :=
  if "UH::Theme::".data.isPrefixOf tag then .refusedTheme
  else
    let v := validate_tag tag
    if !v.1 then .invalidTag v.2
    else if existing.contains tag then .alreadyExists
    else .created

/-- C7 — tag taxonomy on the four reference cases:
`UH::Region::Europe::Central` validates; `UH::Region::Mars` fails
(unknown continent); `UH::Theme::Cooking` fails (not curated);
`create_tag` refuses every `UH::Theme::…` tag outright, including
`UH::Theme::War` whose value is in the curated list. -/
theorem C7_tag_taxonomy :
    validate_tag "UH::Region::Europe::Central".data = (true, []) ∧
    (validate_tag "UH::Region::Mars".data).1 = false ∧
    (validate_tag "UH::Theme::Cooking".data).1 = false ∧
    (validate_tag "UH::Theme::War".data).1 = true ∧
    ∀ (existing : List (List Char)) (rest : List Char),
      create_tag existing ("UH::Theme::".data ++ rest) =
        CreateTagResult.refusedTheme := by
  refine ⟨by decide, by decide, by decide, by decide, ?_⟩
  intro existing rest
  unfold create_tag
  rw [if_pos]
  exact List.isPrefixOf_iff_prefix.mpr (List.prefix_append _ _)

/-! ## Data model (`tools/model.py`) and relationship resolution
(`tools/list_relationships.py`, `RelationshipAnalyzer`) -/

/-- `Relationship` (`tools/model.py` lines 8–14). -/
structure Relationship where
  target_name : String
  target_guid : Option String
  description : Option String
deriving DecidableEq

/-- The kind-specific payload of the four note classes
(`tools/model.py` lines 44–99). -/
inductive NoteData
  | person (name : String) (birth death : Option String)
  | event (name : String) (start stop : Option String)
  | qa (question answer : String)
  | cloze (text : String)
deriving DecidableEq

/-- `Note` (`tools/model.py` lines 17–41): shared guid and the two
outgoing relationship lists, plus the kind payload. -/
structure Note where
  guid : String
  data : NoteData
  related_persons : List Relationship
  related_events : List Relationship
deriving DecidableEq

/-- `get_display_name`. -/
def Note.get_display_name (n : Note) : String :=
  match n.data with
  | .person name _ _ => name
  | .event name _ _ => name
  | .qa question _ => question
  | .cloze text => text

/-- `isinstance(note, (Person, Event))` — the relationship targets. -/
def Note.isTargetKind (n : Note) : Bool :=
  match n.data with
  | .person _ _ _ => true
  | .event _ _ _ => true
  | _ => false

/-- `get_all_outgoing_relationships`: persons then events. -/
def Note.get_all_outgoing_relationships (n : Note) : List Relationship :=
  n.related_persons ++ n.related_events

/-- `total_relationships`. -/
def Note.total_relationships (n : Note) (incoming_count : Nat) : Nat :=
  n.get_all_outgoing_relationships.length + incoming_count

/-- The `name_to_note` dict built in `resolve_relationship_guids`
(`list_relationships.py` lines 105–109): iterate the loaded notes in
order, keep Person/Event notes under their display name, later
insertions overwriting earlier ones.  Modelled as the update-fold of the
dict. -/
def buildNameMap (notes : List Note) : String → Option Note :=
  notes.foldl
    (fun m nt =>
      if nt.isTargetKind then
        fun k => if k = nt.get_display_name then some nt else m k
      else m)
    (fun _ => none)

/-- One relationship resolution step (`list_relationships.py` lines
114–117): an exact, case-sensitive dict lookup of `target_name`; on a hit
the guid is written, otherwise the relationship is left untouched. -/
def resolveRel (m : String → Option Note) (r : Relationship) : Relationship :=
  match m r.target_name with
  | some t => { r with target_guid := some t.guid }
  | none => r

/-- Resolution applied to one source note's outgoing lists. -/
def resolveNote (m : String → Option Note) (n : Note) : Note :=
  { n with
    related_persons := n.related_persons.map (resolveRel m),
    related_events := n.related_events.map (resolveRel m) }

/-- `resolve_relationship_guids`, mutation part: every note's outgoing
relationships resolved against the name map of the full collection. -/
def resolveNotes (notes : List Note) : List Note :=
  notes.map (resolveNote (buildNameMap notes))

/-- The incoming index built against an explicit name map: the flat
append-ordered list of `(target guid, source guid, resolved
relationship)` entries; `incoming_relationships[g]` is its restriction
to first component `g`. -/
def incomingAux (m : String → Option Note) (notes : List Note) :
    List (String × String × Relationship) :=
  notes.flatMap (fun src =>
    src.get_all_outgoing_relationships.filterMap (fun r =>
      match m r.target_name with
      | some t => some (t.guid, src.guid, resolveRel m r)
      | none => none))

/-- `self.incoming_relationships` after `resolve_relationship_guids`. -/
def incomingIndex (notes : List Note) : List (String × String × Relationship) :=
  incomingAux (buildNameMap notes) notes

/-- The entries filed under guid `g` (a `defaultdict(list)` bucket). -/
def incomingFor (notes : List Note) (g : String) :
    List (String × String × Relationship) :=
  (incomingIndex notes).filter (fun e => e.1 = g)

/-! ### Resolution lemmas -/

/-- Anything the name map returns is a loaded Person/Event note filed
under exactly its display name. -/
theorem buildNameMap_spec (notes : List Note) (k : String) (t : Note)
    (h : buildNameMap notes k = some t) :
    t ∈ notes ∧ t.isTargetKind ∧ t.get_display_name = k := by
  suffices H : ∀ (l : List Note) (m0 : String → Option Note),
      (l.foldl (fun m nt =>
        if nt.isTargetKind then
          (fun k' => if k' = nt.get_display_name then some nt else m k')
        else m) m0) k = some t →
      (t ∈ l ∧ t.isTargetKind ∧ t.get_display_name = k) ∨ m0 k = some t by
    rcases H notes (fun _ => none) h with h' | h'
    · exact h'
    · simp at h'
  intro l
  induction l with
  | nil => intro m0 h0; exact Or.inr h0
  | cons n ns ih =>
    intro m0 h0
    rw [List.foldl_cons] at h0
    rcases ih _ h0 with h' | h'
    · exact Or.inl ⟨List.mem_cons_of_mem _ h'.1, h'.2⟩
    · by_cases hk : n.isTargetKind
      · rw [if_pos hk] at h'
        by_cases hd : k = n.get_display_name
        · rw [if_pos hd] at h'
          obtain rfl : n = t := by injection h'
          exact Or.inl ⟨List.mem_cons_self _ _, hk, hd.symm⟩
        · rw [if_neg hd] at h'
          exact Or.inr h'
      · rw [if_neg hk] at h'
        exact Or.inr h'

/-- C3 counterexample input — a Person "Napoleon Bonaparte" and a note
referencing it in different case.  The claim predicts a case-insensitive
exact match (the lowered names coincide), hence a resolved guid and an
incoming entry; the code's exact lookup misses, leaving the reference
unresolved and the incoming index empty. -/
def c3NoteB : Note :=
  ⟨"b", .person "Napoleon Bonaparte" (some "1769") (some "1821"), [], []⟩

/-- Source note of the C3 counterexample, with one lower-cased reference. -/
def c3NoteA : Note :=
  ⟨"a", .person "Some Author" none none,
    [⟨"napoleon bonaparte", none, none⟩], []⟩

/-- C3, counterexample — the target name matches the loaded entity name
case-insensitively (premise of the claim), yet resolution leaves
`target_guid = none` and files nothing in the incoming index. -/
theorem C3_counterexample :
    pyLowerS "napoleon bonaparte" = pyLowerS "Napoleon Bonaparte" ∧
    resolveNotes [c3NoteB, c3NoteA] = [c3NoteB, c3NoteA] ∧
    (((resolveNotes [c3NoteB, c3NoteA]).getD 1 c3NoteB).related_persons.map
      (fun r => r.target_guid)) = [none] ∧
    incomingIndex [c3NoteB, c3NoteA] = [] := by
  refine ⟨by decide, ?_, ?_, ?_⟩ <;> decide

/-- C3, amended — resolution is an exact, case-sensitive lookup of
`target_name` in the name map (no case folding, no fuzzy fallback): a hit
writes exactly the matched note's guid, a miss leaves the relationship
untouched (never dropped — counts are preserved), every mapped target is
a loaded Person/Event note filed under precisely its display name, and
the incoming index consists of exactly the successfully resolved
references keyed by the target's guid, in traversal order. -/
theorem C3_amended_exact_resolution (notes : List Note) :
    (∀ r : Relationship,
      (resolveRel (buildNameMap notes) r).target_name = r.target_name ∧
      (resolveRel (buildNameMap notes) r).description = r.description ∧
      (r.target_guid = none →
        (resolveRel (buildNameMap notes) r).target_guid =
          (buildNameMap notes r.target_name).map Note.guid) ∧
      (buildNameMap notes r.target_name = none →
        resolveRel (buildNameMap notes) r = r)) ∧
    (resolveNotes notes).length = notes.length ∧
    (∀ n ∈ notes,
      (resolveNote (buildNameMap notes) n).get_all_outgoing_relationships.length
        = n.get_all_outgoing_relationships.length) ∧
    (∀ k t, buildNameMap notes k = some t →
      t ∈ notes ∧ t.isTargetKind ∧ t.get_display_name = k) ∧
    incomingIndex notes = notes.flatMap (fun src =>
      src.get_all_outgoing_relationships.filterMap (fun r =>
        (buildNameMap notes r.target_name).map
          (fun t => (t.guid, src.guid, resolveRel (buildNameMap notes) r)))) := by
  refine ⟨?_, ?_, ?_, fun k t h => buildNameMap_spec notes k t h, ?_⟩
  · intro r
    refine ⟨?_, ?_, ?_, ?_⟩
    · unfold resolveRel
      cases buildNameMap notes r.target_name <;> rfl
    · unfold resolveRel
      cases buildNameMap notes r.target_name <;> rfl
    · intro hnone
      unfold resolveRel
      cases buildNameMap notes r.target_name
      · exact hnone
      · rfl
    · intro h
      unfold resolveRel
      rw [h]
  · unfold resolveNotes
    exact List.length_map _ _
  · intro n _
    unfold resolveNote Note.get_all_outgoing_relationships
    simp
  · unfold incomingIndex incomingAux
    congr 1
    funext src
    congr 1
    funext r
    cases buildNameMap notes r.target_name <;> rfl

/-- Witness for the amended C3 theorem at a concrete two-note world. -/
theorem C3_amended_exact_resolution_witness :
    (c3NoteB ∈ [c3NoteB, c3NoteA] ∧
      (resolveNote (buildNameMap [c3NoteB, c3NoteA])
        c3NoteB).get_all_outgoing_relationships.length
        = c3NoteB.get_all_outgoing_relationships.length) ∧
    (buildNameMap [c3NoteB, c3NoteA] "Napoleon Bonaparte" = some c3NoteB ∧
      (c3NoteB ∈ [c3NoteB, c3NoteA] ∧ c3NoteB.isTargetKind ∧
        c3NoteB.get_display_name = "Napoleon Bonaparte")) :=
  ⟨⟨by decide,
      (C3_amended_exact_resolution [c3NoteB, c3NoteA]).2.2.1 c3NoteB (by decide)⟩,
    by decide,
    (C3_amended_exact_resolution [c3NoteB, c3NoteA]).2.2.2.1
      "Napoleon Bonaparte" c3NoteB (by decide)⟩

/-- The number of a note's outgoing relationships that resolve (through
name map `m`) to a note with guid `g`. -/
def countResolvingTo (m : String → Option Note) (X : Note) (g : String) : Nat :=
  (X.get_all_outgoing_relationships.filter
    (fun r => decide ((m r.target_name).map Note.guid = some g))).length

/-- One source's contribution to the incoming index. -/
def srcContrib (m : String → Option Note) (src : Note) :
    List (String × String × Relationship) :=
  src.get_all_outgoing_relationships.filterMap (fun r =>
    match m r.target_name with
    | some t => some (t.guid, src.guid, resolveRel m r)
    | none => none)

theorem incomingAux_eq_flatMap (m : String → Option Note) (l : List Note) :
    incomingAux m l = l.flatMap (srcContrib m) := rfl

theorem srcContrib_filter_key (m : String → Option Note) (src : Note)
    (g : String) :
    ((srcContrib m src).filter (fun e => decide (e.1 = g))).length
      = countResolvingTo m src g := by
  unfold srcContrib countResolvingTo
  generalize src.get_all_outgoing_relationships = rels
  induction rels with
  | nil => rfl
  | cons r rs ih =>
    rw [List.filterMap_cons, List.filter_cons]
    cases hm : m r.target_name with
    | none =>
      simp only [hm, Option.map_none']
      rw [if_neg (by simp)]
      exact ih
    | some t =>
      simp only [hm, Option.map_some']
      rw [List.filter_cons]
      by_cases hg : t.guid = g
      · rw [if_pos (by simpa using hg), if_pos (by simpa using hg)]
        simp only [List.length_cons]
        rw [ih]
      · rw [if_neg (by simpa using hg), if_neg (by simpa using hg)]
        exact ih

/-- Every incoming entry records its source note's guid. -/
theorem srcContrib_snd (m : String → Option Note) (src : Note) :
    ∀ e ∈ srcContrib m src, e.2.1 = src.guid := by
  intro e he
  rcases List.mem_filterMap.mp he with ⟨r, _, hr⟩
  cases hmm : m r.target_name with
  | none => rw [hmm] at hr; exact absurd hr (by simp)
  | some t =>
    rw [hmm] at hr
    have := Option.some.inj hr
    rw [← this]

theorem srcContrib_filter_src_ne (m : String → Option Note) (src : Note)
    (g gA : String) (hA : src.guid ≠ gA) :
    ((srcContrib m src).filter
      (fun e => decide (e.1 = g) && decide (e.2.1 = gA))).length = 0 := by
  rw [List.length_eq_zero, List.filter_eq_nil_iff]
  intro e he
  have h2 := srcContrib_snd m src e he
  simp [h2, hA]

theorem srcContrib_filter_src_eq (m : String → Option Note) (src : Note)
    (g gA : String) (hA : src.guid = gA) :
    ((srcContrib m src).filter
      (fun e => decide (e.1 = g) && decide (e.2.1 = gA))).length
      = countResolvingTo m src g := by
  rw [List.filter_congr (fun e he => ?_), srcContrib_filter_key]
  have h2 := srcContrib_snd m src e he
  simp [h2, hA]

theorem incomingAux_cons (m : String → Option Note) (n : Note) (ns : List Note) :
    incomingAux m (n :: ns) = srcContrib m n ++ incomingAux m ns := by
  simp [incomingAux, srcContrib, List.flatMap_cons]

/-- The size of the key-`g` incoming bucket is the sum, over all notes,
of how many of their references resolve to guid `g`. -/
theorem incomingAux_filter_key (m : String → Option Note) (l : List Note)
    (g : String) :
    ((incomingAux m l).filter (fun e => decide (e.1 = g))).length
      = (l.map (fun X => countResolvingTo m X g)).sum := by
  induction l with
  | nil => rfl
  | cons n ns ih =>
    rw [incomingAux_cons, List.filter_append, List.length_append,
      srcContrib_filter_key, ih, List.map_cons, List.sum_cons]

theorem incomingAux_filter_src (m : String → Option Note) (l : List Note)
    (g gA : String) :
    ((incomingAux m l).filter
      (fun e => decide (e.1 = g) && decide (e.2.1 = gA))).length
      = (l.map (fun X => if X.guid = gA then countResolvingTo m X g else 0)).sum := by
  induction l with
  | nil => rfl
  | cons n ns ih =>
    rw [incomingAux_cons, List.filter_append, List.length_append, ih,
      List.map_cons, List.sum_cons]
    by_cases hA : n.guid = gA
    · rw [srcContrib_filter_src_eq m n g gA hA, if_pos hA]
    · rw [srcContrib_filter_src_ne m n g gA hA, if_neg hA]

/-- With pairwise distinct guids, the sum collapses to the one note that
carries the guid. -/
theorem sum_if_guid (l : List Note) (X : Note) (hX : X ∈ l)
    (hg : (l.map Note.guid).Nodup) (f : Note → Nat) :
    (l.map (fun Y => if Y.guid = X.guid then f Y else 0)).sum = f X := by
  induction l with
  | nil => cases hX
  | cons n ns ih =>
    rw [List.map_cons, List.sum_cons]
    rw [List.map_cons] at hg
    have hg2 := List.nodup_cons.mp hg
    rcases List.mem_cons.mp hX with rfl | hX'
    · rw [if_pos rfl]
      have hzero : (ns.map (fun Y =>
          if Y.guid = X.guid then f Y else 0)).sum = 0 := by
        apply List.sum_eq_zero
        intro x hx
        rcases List.mem_map.mp hx with ⟨Y, hY, rfl⟩
        rw [if_neg]
        intro hEq
        exact hg2.1 (hEq ▸ List.mem_map_of_mem Note.guid hY)
      rw [hzero, Nat.add_zero]
    · have hn : n.guid ≠ X.guid := by
        intro hEq
        exact hg2.1 (hEq ▸ List.mem_map_of_mem Note.guid hX')
      rw [if_neg hn, ih hX' hg2.2, Nat.zero_add]

/-- C5 counterexample world: `B` referenced once by `A` and once by `C`. -/
def c5NoteB : Note := ⟨"b", .person "Target Person" none none, [], []⟩

/-- Counterexample source `A`, with exactly one reference to `B`. -/
def c5NoteA : Note :=
  ⟨"a", .person "Author A" none none, [⟨"Target Person", none, none⟩], []⟩

/-- A second, independent referrer of `B`. -/
def c5NoteC : Note :=
  ⟨"c", .person "Author C" none none, [⟨"Target Person", none, none⟩], []⟩

/-- `A` with its reference removed. -/
def c5NoteA' : Note := ⟨"a", .person "Author A" none none, [], []⟩

/-- C5, counterexample — `A` has exactly one outgoing relationship
resolving to `B` (the claim's premise), and indeed `B`'s incoming bucket
holds exactly one entry with `A` as the source; but after removing that
relationship from `A` and rebuilding from scratch, `B`'s incoming count
is 1 (the independent referrer `C` remains), not zero as the claim
states. -/
theorem C5_counterexample :
    (c5NoteA.get_all_outgoing_relationships.filter (fun r =>
      decide ((buildNameMap [c5NoteB, c5NoteA, c5NoteC] r.target_name)
        = some c5NoteB))).length = 1 ∧
    ((incomingFor [c5NoteB, c5NoteA, c5NoteC] "b").filter
      (fun e => decide (e.2.1 = "a"))).length = 1 ∧
    (incomingFor [c5NoteB, c5NoteA', c5NoteC] "b").length = 1 := by
  refine ⟨by decide, by decide, by decide⟩

/-- C5, amended — exact incoming-edge counting under full rebuild: for
any loaded collection, the incoming bucket of guid `g` has exactly one
entry per outgoing relationship resolving to `g`; restricted to one
source note (under distinct guids) it counts exactly that note's
resolving relationships.  Hence if `A` has exactly one relationship
resolving to `B`, `B`'s bucket has exactly one entry with source `A`;
after removing it and rebuilding, zero with source `A`; and `B`'s total
count drops to zero exactly when no note at all still resolves to `B`. -/
theorem C5_amended_incoming_exact (notes : List Note) (g : String) :
    ((incomingFor notes g).length =
      (notes.map (fun X =>
        countResolvingTo (buildNameMap notes) X g)).sum) ∧
    (∀ X, X ∈ notes → (notes.map Note.guid).Nodup →
      ((incomingFor notes g).filter
        (fun e => decide (e.2.1 = X.guid))).length
        = countResolvingTo (buildNameMap notes) X g) := by
  constructor
  · unfold incomingFor incomingIndex
    exact incomingAux_filter_key (buildNameMap notes) notes g
  · intro X hX hg
    unfold incomingFor incomingIndex
    rw [List.filter_filter, List.filter_congr (fun e _ => Bool.and_comm _ _),
      incomingAux_filter_src (buildNameMap notes) notes g X.guid,
      sum_if_guid notes X hX hg]

/-- Witness for the amended C5 theorem: in the two-note world `[B, A]`
with one reference, the bucket of `"b"` has total size 1 and exactly one
entry with source `A`; in the rebuilt world `[B, A']` both counts are 0. -/
theorem C5_amended_incoming_exact_witness :
    ((incomingFor [c5NoteB, c5NoteA] "b").length =
        (([c5NoteB, c5NoteA]).map (fun X =>
          countResolvingTo (buildNameMap [c5NoteB, c5NoteA]) X "b")).sum) ∧
    (c5NoteA ∈ [c5NoteB, c5NoteA] ∧
      (([c5NoteB, c5NoteA]).map Note.guid).Nodup ∧
      ((incomingFor [c5NoteB, c5NoteA] "b").filter
        (fun e => decide (e.2.1 = c5NoteA.guid))).length
        = countResolvingTo (buildNameMap [c5NoteB, c5NoteA]) c5NoteA "b") ∧
    ((incomingFor [c5NoteB, c5NoteA'] "b").filter
        (fun e => decide (e.2.1 = c5NoteA'.guid))).length
        = countResolvingTo (buildNameMap [c5NoteB, c5NoteA']) c5NoteA' "b" :=
  ⟨(C5_amended_incoming_exact [c5NoteB, c5NoteA] "b").1,
    ⟨by decide, by decide,
      (C5_amended_incoming_exact [c5NoteB, c5NoteA] "b").2 c5NoteA
        (by decide) (by decide)⟩,
    (C5_amended_incoming_exact [c5NoteB, c5NoteA'] "b").2 c5NoteA'
      (by decide) (by decide)⟩

/-! ## `difflib.SequenceMatcher.ratio` (CPython, as used by `fuzzy_match`)

The matcher is embedded for inputs shorter than 200 characters (every
name in this repository), where `autojunk` never marks junk, so `b2j`
indexes every position and the junk-extension loops of
`find_longest_match` are no-ops.  Ratios `2·M/T` are carried as exact
numerator/denominator pairs and compared by cross-multiplication — the
exact comparison of the underlying rationals (CPython compares their
`float` roundings; on the short strings involved here no comparison this
development relies on sits inside one rounding ulp). -/

/-- `b2j[c]`: the positions of `c` in `b`, ascending (built by scanning
`b` left to right). -/
def b2j (b : List Char) (c : Char) : List Nat :=
  (List.range b.length).filter (fun j => b.getD j ' ' = c)

/-- One row of `find_longest_match`'s dynamic program: for query row `i`
walk the `b2j` positions inside the window in ascending order (the
`j < blo` `continue` and `j >= bhi` `break` act as a window filter),
extend the run ending at `(i, j)` from the previous row's `j2len`, and
improve the best block only on a strictly longer run. -/
def flmRow (a b : List Char) (blo bhi i : Nat)
    (st : (Nat → Nat) × (Nat × Nat × Nat)) : (Nat → Nat) × (Nat × Nat × Nat) :=
  let prev := st.1
  let js := (b2j b (a.getD i ' ')).filter
    (fun j => decide (blo ≤ j) && decide (j < bhi))
  js.foldl
    (fun acc j =>
      let k := (if j = 0 then 0 else prev (j - 1)) + 1
      ((fun x => if x = j then k else acc.1 x),
        if acc.2.2.2 < k then (i + 1 - k, j + 1 - k, k) else acc.2))
    ((fun _ => 0), st.2)

/-- The dynamic program of `find_longest_match` over rows
`alo ≤ i < ahi`, starting from `(alo, blo, 0)`. -/
def flmCore (a b : List Char) (alo ahi blo bhi : Nat) : Nat × Nat × Nat :=
  ((List.range' alo (ahi - alo)).foldl
    (fun st i => flmRow a b blo bhi i st)
    ((fun _ => 0), (alo, blo, 0))).2

/-- The first `while` loop of `find_longest_match`: extend the best block
leftwards over equal characters (with no junk the junk guard is vacuous).
Fuel bounds the iterations; `besti` itself is enough since `besti`
decreases towards `alo ≥ 0`.  Distinct out-of-range sentinels keep
out-of-window reads from ever comparing equal. -/
def extendLeft (a b : List Char) (alo blo : Nat) :
    Nat → Nat × Nat × Nat → Nat × Nat × Nat
  | 0, t => t
  | fuel + 1, (bi, bj, k) =>
    if alo < bi ∧ blo < bj ∧ a.getD (bi - 1) ' ' = b.getD (bj - 1) '!' then
      extendLeft a b alo blo fuel (bi - 1, bj - 1, k + 1)
    else (bi, bj, k)

/-- The second `while` loop: extend the best block rightwards. -/
def extendRight (a b : List Char) (ahi bhi : Nat) :
    Nat → Nat × Nat × Nat → Nat × Nat × Nat
  | 0, t => t
  | fuel + 1, (bi, bj, k) =>
    if bi + k < ahi ∧ bj + k < bhi ∧ a.getD (bi + k) ' ' = b.getD (bj + k) '!' then
      extendRight a b ahi bhi fuel (bi, bj, k + 1)
    else (bi, bj, k)

/-- `find_longest_match(alo, ahi, blo, bhi)` with no junk: the dynamic
program, then the two extension loops (the junk-driven second pair of
loops never fires and is omitted). -/
def find_longest_match (a b : List Char) (alo ahi blo bhi : Nat) :
    Nat × Nat × Nat :=
  let best := flmCore a b alo ahi blo bhi
  let best := extendLeft a b alo blo best.1 best
  extendRight a b ahi bhi ahi best

/-- Total size of all matching blocks (`get_matching_blocks` explores the
windows left and right of each longest match; block order is irrelevant
to the sum).  Each recursion strictly shrinks the combined window size,
so fuel `a.length + b.length + 1` never runs out. -/
def matchSumAux (a b : List Char) : Nat → Nat → Nat → Nat → Nat → Nat
  | 0, _, _, _, _ => 0
  | fuel + 1, alo, ahi, blo, bhi =>
    let m := find_longest_match a b alo ahi blo bhi
    if m.2.2 = 0 then 0
    else
      matchSumAux a b fuel alo m.1 blo m.2.1 + m.2.2 +
        matchSumAux a b fuel (m.1 + m.2.2) ahi (m.2.1 + m.2.2) bhi

/-- `sum(block.size for block in get_matching_blocks())`. -/
def matchSum (a b : List Char) : Nat :=
  matchSumAux a b (a.length + b.length + 1) 0 a.length 0 b.length

/-- `SequenceMatcher.ratio()` as the exact rational `2·M/T`, carried as a
numerator/denominator pair; `_calculate_ratio` returns `1.0` when both
sequences are empty. -/
def smRatioPair (a b : List Char) : Nat × Nat :=
  let T := a.length + b.length
  if T = 0 then (1, 1) else (2 * matchSum a b, T)

/-- Exact comparison `p < q` of two nonnegative fractions. -/
def ratioLt (p q : Nat × Nat) : Bool := p.1 * q.2 < q.1 * p.2

/-- Exact comparison `p ≤ q` of two nonnegative fractions. -/
def ratioLe (p q : Nat × Nat) : Bool := p.1 * q.2 ≤ q.1 * p.2

/-- The rational value of a ratio pair. -/
def ratioQ (p : Nat × Nat) : ℚ := (p.1 : ℚ) / (p.2 : ℚ)

theorem smRatioPair_den_pos (a b : List Char) : 0 < (smRatioPair a b).2 := by
  by_cases h : a.length + b.length = 0 <;> simp [smRatioPair, h]
  omega

theorem ratioLt_iff {p q : Nat × Nat} (hp : 0 < p.2) (hq : 0 < q.2) :
    ratioLt p q = true ↔ ratioQ p < ratioQ q := by
  unfold ratioLt ratioQ
  rw [div_lt_div_iff₀ (by exact_mod_cast hp) (by exact_mod_cast hq)]
  rw [decide_eq_true_eq]
  constructor
  · intro h; exact_mod_cast h
  · intro h; exact_mod_cast h

theorem ratioLe_iff {p q : Nat × Nat} (hp : 0 < p.2) (hq : 0 < q.2) :
    ratioLe p q = true ↔ ratioQ p ≤ ratioQ q := by
  unfold ratioLe ratioQ
  rw [div_le_div_iff₀ (by exact_mod_cast hp) (by exact_mod_cast hq)]
  rw [decide_eq_true_eq]
  constructor
  · intro h; exact_mod_cast h
  · intro h; exact_mod_cast h

/-- The loop body of `fuzzy_match`: accept a candidate only on a strict
improvement of the best ratio that also meets the threshold
(`ratio > best_ratio and ratio >= threshold`). -/
def fmStep (name : List Char) (threshold : Nat × Nat)
    (acc : Option (List Char) × (Nat × Nat)) (candidate : List Char) :
    Option (List Char) × (Nat × Nat) :=
  let ratio := smRatioPair (pyLower name) (pyLower candidate)
  if ratioLt acc.2 ratio && ratioLe threshold ratio then (some candidate, ratio)
  else acc

/-- `fuzzy_match` (`tools/utils.py` lines 99–119): iterate the candidate
names in dictionary insertion order, fold the loop body, return the final
best candidate.  `best_match, best_ratio` start at `None, 0.0`. -/
def fuzzy_match (name : List Char) (candidates : List (List Char))
    (threshold : Nat × Nat) : Option (List Char) :=
  (candidates.foldl (fmStep name threshold) (none, (0, 1))).1

/-- `ReferenceValidator.fuzzy_match` (`tools/validate_references.py`
lines 77–90): the same loop with the fixed threshold
`self.fuzzy_threshold = 0.8`. -/
def RV.fuzzy_match (name : List Char) (candidates : List (List Char)) :
    Option (List Char) :=
  (candidates.foldl (fmStep name (4, 5)) (none, (0, 1))).1

/-- The validator's matcher is the shared one at threshold `0.8`. -/
theorem RV_fuzzy_match_eq (name : List Char) (candidates : List (List Char)) :
    RV.fuzzy_match name candidates = fuzzy_match name candidates (4, 5) := rfl

/-- Specification of the `fuzzy_match` fold: either nothing ever beats
the accumulator, or the result is the first candidate attaining the final
(maximal eligible) ratio — earlier candidates are strictly below it and
later ones never strictly exceed it while meeting the threshold. -/
theorem fmFold_spec (name : List Char) (θ : Nat × Nat) (hθ : 0 < θ.2) :
    ∀ (cs : List (List Char)) (acc : Option (List Char) × (Nat × Nat)),
      0 < acc.2.2 →
      (cs.foldl (fmStep name θ) acc = acc ∧
        ∀ d ∈ cs, ¬(ratioLt acc.2 (smRatioPair (pyLower name) (pyLower d)) = true ∧
          ratioLe θ (smRatioPair (pyLower name) (pyLower d)) = true)) ∨
      (∃ s₁ c s₂, cs = s₁ ++ c :: s₂ ∧
        cs.foldl (fmStep name θ) acc =
          (some c, smRatioPair (pyLower name) (pyLower c)) ∧
        ratioLe θ (smRatioPair (pyLower name) (pyLower c)) = true ∧
        ratioLt acc.2 (smRatioPair (pyLower name) (pyLower c)) = true ∧
        (∀ d ∈ s₁, ratioQ (smRatioPair (pyLower name) (pyLower d)) <
          ratioQ (smRatioPair (pyLower name) (pyLower c))) ∧
        (∀ d ∈ s₂,
          ¬(ratioLt (smRatioPair (pyLower name) (pyLower c))
              (smRatioPair (pyLower name) (pyLower d)) = true ∧
            ratioLe θ (smRatioPair (pyLower name) (pyLower d)) = true))) := by
  intro cs
  induction cs with
  | nil => intro acc _; left; exact ⟨rfl, by simp⟩
  | cons d cs ih =>
    intro acc hacc
    rw [List.foldl_cons]
    by_cases hup : ratioLt acc.2 (smRatioPair (pyLower name) (pyLower d)) = true ∧
        ratioLe θ (smRatioPair (pyLower name) (pyLower d)) = true
    · -- the head updates the accumulator
      have hstep : fmStep name θ acc d =
          (some d, smRatioPair (pyLower name) (pyLower d)) := by
        unfold fmStep
        rw [if_pos (by rw [hup.1, hup.2]; rfl)]
      rw [hstep]
      have hd2 : 0 < (smRatioPair (pyLower name) (pyLower d)).2 :=
        smRatioPair_den_pos _ _
      rcases ih (some d, smRatioPair (pyLower name) (pyLower d)) hd2 with
        ⟨heq, hrest⟩ | ⟨s₁, c, s₂, hsplit, heq, hthr, hgt, hs₁, hs₂⟩
      · right
        exact ⟨[], d, cs, rfl, heq, hup.2, hup.1, by simp, hrest⟩
      · right
        refine ⟨d :: s₁, c, s₂, by rw [hsplit]; rfl, heq, hthr, ?_, ?_, hs₂⟩
        · exact (ratioLt_iff hacc (smRatioPair_den_pos _ _)).mpr
            (lt_trans ((ratioLt_iff hacc hd2).mp hup.1)
              ((ratioLt_iff hd2 (smRatioPair_den_pos _ _)).mp hgt))
        · intro e he
          rcases List.mem_cons.mp he with rfl | he'
          · exact (ratioLt_iff hd2 (smRatioPair_den_pos _ _)).mp hgt
          · exact hs₁ e he'
    · -- the head is rejected, the accumulator survives
      have hstep : fmStep name θ acc d = acc := by
        unfold fmStep
        rw [if_neg]
        intro hand
        rw [Bool.and_eq_true] at hand
        exact hup hand
      rw [hstep]
      rcases ih acc hacc with ⟨heq, hrest⟩ | ⟨s₁, c, s₂, hsplit, heq, hthr, hgt, hs₁, hs₂⟩
      · left
        refine ⟨heq, ?_⟩
        intro e he
        rcases List.mem_cons.mp he with rfl | he'
        · exact hup
        · exact hrest e he'
      · right
        refine ⟨d :: s₁, c, s₂, by rw [hsplit]; rfl, heq, hthr, hgt, ?_, hs₂⟩
        intro e he
        have hd2 : 0 < (smRatioPair (pyLower name) (pyLower e)).2 :=
          smRatioPair_den_pos _ _
        have hc2 : 0 < (smRatioPair (pyLower name) (pyLower c)).2 :=
          smRatioPair_den_pos _ _
        rcases List.mem_cons.mp he with rfl | he'
        · -- rejection of e: either below the accumulator or below the threshold
          rcases not_and_or.mp hup with hlt | hle
        -- case: ratio e ≤ acc.2 < ratio c
          · have h1 : ratioQ (smRatioPair (pyLower name) (pyLower e)) ≤
                ratioQ acc.2 := by
              by_contra hcon
              exact hlt ((ratioLt_iff hacc hd2).mpr (lt_of_not_le hcon))
            exact lt_of_le_of_lt h1 ((ratioLt_iff hacc hc2).mp hgt)
          -- case: ratio e < θ ≤ ratio c
          · have h1 : ratioQ (smRatioPair (pyLower name) (pyLower e)) <
                ratioQ θ := by
              by_contra hcon
              exact hle ((ratioLe_iff hθ hd2).mpr (le_of_not_lt hcon))
            exact lt_of_lt_of_le h1 ((ratioLe_iff hθ hc2).mp hthr)
        · exact hs₁ e he'

/-- C9 — fuzzy matching is deterministic including on ties.  The embedded
`fuzzy_match` is a pure fold, so two runs on the same name, candidate
order and threshold are definitionally the same; this theorem pins down
the tie policy: whenever a result is returned it meets the threshold, it
is the maximum over all threshold-meeting candidates, every *earlier*
candidate has a strictly smaller ratio (an equal ratio can therefore only
sit later in iteration order: the first maximal candidate wins, because
an update requires a strict improvement), and the validator's copy
coincides with the shared one at threshold 0.8. -/
theorem C9_fuzzy_match_first_max (name : List Char)
    (cs : List (List Char)) (θ : Nat × Nat) (hθ : 0 < θ.2) :
    (∀ c, fuzzy_match name cs θ = some c →
      ∃ s₁ s₂, cs = s₁ ++ c :: s₂ ∧
        ratioQ θ ≤ ratioQ (smRatioPair (pyLower name) (pyLower c)) ∧
        (∀ d ∈ s₁, ratioQ (smRatioPair (pyLower name) (pyLower d)) <
          ratioQ (smRatioPair (pyLower name) (pyLower c))) ∧
        (∀ d ∈ cs, ratioQ θ ≤ ratioQ (smRatioPair (pyLower name) (pyLower d)) →
          ratioQ (smRatioPair (pyLower name) (pyLower d)) ≤
            ratioQ (smRatioPair (pyLower name) (pyLower c)))) ∧
    RV.fuzzy_match name cs = fuzzy_match name cs (4, 5) := by
  constructor
  · intro c h
    unfold fuzzy_match at h
    rcases fmFold_spec name θ hθ cs (none, (0, 1)) (by norm_num) with
      ⟨heq, _⟩ | ⟨s₁, c', s₂, hsplit, heq, hthr, _, hs₁, hs₂⟩
    · rw [heq] at h
      exact absurd h (by simp)
    · rw [heq] at h
      have hcc : c' = c := Option.some.inj h
      rw [← hcc]
      have hc2 : 0 < (smRatioPair (pyLower name) (pyLower c')).2 :=
        smRatioPair_den_pos _ _
      refine ⟨s₁, s₂, hsplit, (ratioLe_iff hθ hc2).mp hthr, hs₁, ?_⟩
      intro d hd hdθ
      have hd2 : 0 < (smRatioPair (pyLower name) (pyLower d)).2 :=
        smRatioPair_den_pos _ _
      rw [hsplit] at hd
      rcases List.mem_append.mp hd with hd' | hd'
      · exact le_of_lt (hs₁ d hd')
      · rcases List.mem_cons.mp hd' with rfl | hd''
        · exact le_refl _
        · have hrej := hs₂ d hd''
          rcases not_and_or.mp hrej with h1 | h2
          · by_contra hcon
            exact h1 ((ratioLt_iff hc2 hd2).mpr (lt_of_not_le hcon))
          · exact absurd ((ratioLe_iff hθ hd2).mpr hdθ) h2
  · exact RV_fuzzy_match_eq name cs

/-- Witness for C9 at a concrete tie: `"ax"` and `"xb"` both have ratio
`1/2` against `"ab"`; with threshold `1/2` the first candidate is
returned. -/
theorem C9_fuzzy_match_first_max_witness :
    (smRatioPair (pyLower "ab".data) (pyLower "ax".data) =
      smRatioPair (pyLower "ab".data) (pyLower "xb".data)) ∧
    fuzzy_match "ab".data ["ax".data, "xb".data] (1, 2) = some "ax".data ∧
    (∃ s₁ s₂, ["ax".data, "xb".data] = s₁ ++ "ax".data :: s₂ ∧
      ratioQ (1, 2) ≤ ratioQ (smRatioPair (pyLower "ab".data) (pyLower "ax".data)) ∧
      (∀ d ∈ s₁, ratioQ (smRatioPair (pyLower "ab".data) (pyLower d)) <
        ratioQ (smRatioPair (pyLower "ab".data) (pyLower "ax".data))) ∧
      (∀ d ∈ ["ax".data, "xb".data],
        ratioQ (1, 2) ≤ ratioQ (smRatioPair (pyLower "ab".data) (pyLower d)) →
        ratioQ (smRatioPair (pyLower "ab".data) (pyLower d)) ≤
          ratioQ (smRatioPair (pyLower "ab".data) (pyLower "ax".data)))) :=
  ⟨by decide, by decide,
    (C9_fuzzy_match_first_max "ab".data ["ax".data, "xb".data] (1, 2)
      (by decide)).1 "ax".data (by decide)⟩

/-! ## Reference validator (`tools/validate_references.py`,
`ReferenceValidator.validate_person_reference` and its data) -/

namespace RV

/-- `Person` (`tools/validate_references.py` lines 14–19). -/
structure Person where
  name : List Char
  birth : Option (List Char)
  death : Option (List Char)
  guid : List Char
deriving DecidableEq

/-- `ValidationError` (`tools/validate_references.py` lines 30–38). -/
structure ValidationError where
  csv_file : List Char
  row_num : Nat
  column : List Char
  error_type : List Char
  message : List Char
  current_value : List Char
  suggested_fix : Option (List Char)
deriving DecidableEq

end RV

/-- Key lookup in the `self.people` dict (unique keys by construction:
`load_people` indexes rows by stripped name, later rows overwriting; for
the claims the dict is given directly as an association list). -/
def rvLookup (people : List (List Char × RV.Person)) (k : List Char) :
    Option RV.Person :=
  (people.find? (fun p => p.1 = k)).map Prod.snd

/-- `re.sub(r"\s+", " ", s)`: collapse every whitespace run to one
space.  The fuel is the string length; every step consumes at least one
character. -/
def normWsAux : Nat → List Char → List Char
  | 0, _ => []
  | _, [] => []
  | fuel + 1, c :: cs =>
    if pyIsSpace c then ' ' :: normWsAux fuel (cs.dropWhile pyIsSpace)
    else c :: normWsAux fuel cs

/-- Whitespace normalisation used by `check_format`. -/
def normWs (l : List Char) : List Char := normWsAux l.length l

/-- `ReferenceValidator.check_format` (`tools/validate_references.py`
lines 180–198). -/
def RV.check_format (value name : List Char)
    (date1 date2 relationship : Option (List Char)) : Bool :=
  let expected := RV.format_reference name date1 date2 relationship
  let normalized_value := normWs (pyStrip value)
  let normalized_expected := normWs (pyStrip expected)
  if pyTruthy relationship && listIsInfixOf " – ".data normalized_value &&
      !(listIsInfixOf ": ".data normalized_value) then
    false
  else normalized_value = normalized_expected

/-- `ReferenceValidator.validate_person_reference`
(`tools/validate_references.py` lines 200–305), as a pure function of
the loaded people: returns the errors it appends and the suggested fix
it returns.  The nested unparseable pre-check (`name == value` with
parentheses, then a spaced en/em dash) is flattened into one
conjunction, which falls through to the main logic exactly as the
nested `if`s do.  `self.people[match]` after a fuzzy hit is modelled
with a lookup whose default is never used (the matcher only returns
existing keys). -/
def RV.validate_person_reference (people : List (List Char × RV.Person))
    (csv_file : List Char) (row_num : Nat) (column : List Char)
    (value : List Char) : List RV.ValidationError × Option (List Char) :=
  if (pyStrip value).isEmpty then ([], none)
  else
    match RV.parse_reference value with
    | (name, date1, date2, relationship) =>
      if name.isEmpty then ([], none)
      else if name = value ∧ listIsInfixOf "(".data value ∧
          listIsInfixOf ")".data value ∧
          (listIsInfixOf " – ".data value ∨ listIsInfixOf " — ".data value) then
        ([⟨csv_file, row_num, column, "unparseable".data,
           "Cannot parse reference - please manually add colon separator".data,
           value, none⟩], none)
      else
        match rvLookup people name with
        | some person =>
          let expected_date1 := person.birth
          let expected_date2 := person.death
          if expected_date1 ≠ date1 ∨ expected_date2 ≠ date2 then
            let fix := RV.format_reference name expected_date1 expected_date2
              relationship
            ([⟨csv_file, row_num, column, "date_mismatch".data,
               "Dates don't match for ".data ++ [apos] ++ name ++ [apos],
               value, some fix⟩], some fix)
          else if !(RV.check_format value name date1 date2 relationship) then
            let formatted := RV.format_reference name date1 date2 relationship
            ([⟨csv_file, row_num, column, "format_issue".data,
               "Format doesn't match standard for ".data ++ [apos] ++ name ++
                 [apos],
               value, some formatted⟩], some formatted)
          else ([], none)
        | none =>
          match RV.fuzzy_match name (people.map Prod.fst) with
          | some mtch =>
            let person := (rvLookup people mtch).getD ⟨mtch, none, none, []⟩
            let fix := RV.format_reference mtch person.birth person.death
              relationship
            ([⟨csv_file, row_num, column, "name_mismatch".data,
               "Name mismatch: ".data ++ [apos] ++ name ++ [apos] ++
                 " should be ".data ++ [apos] ++ mtch ++ [apos],
               value, some fix⟩], some fix)
          | none =>
            ([⟨csv_file, row_num, column, "missing_person".data,
               "Person not found: ".data ++ [apos] ++ name ++ [apos],
               value, none⟩], none)

set_option maxRecDepth 100000 in
/-- C6 — given the loaded Person "Napoleon Bonaparte" (1769–1821), the
misspelled reference `"Napolean Bonaparte (1769-1821): ally"` (no exact
match; fuzzy ratio 17/18 ≥ 0.8) produces exactly one `name_mismatch`
finding whose suggested fix is the canonical encoding
`"Napoleon Bonaparte (1769–1821): ally"` — corrected name, canonical
dates joined by an en-dash, description after a colon. -/
theorem C6_name_mismatch_canonical_fix :
    RV.validate_person_reference
        [("Napoleon Bonaparte".data,
          ⟨"Napoleon Bonaparte".data, some "1769".data, some "1821".data,
            "g1".data⟩)]
        "person.csv".data 2 "related person 1".data
        "Napolean Bonaparte (1769-1821): ally".data =
      ([⟨"person.csv".data, 2, "related person 1".data, "name_mismatch".data,
         "Name mismatch: ".data ++ [apos] ++ "Napolean Bonaparte".data ++
           [apos] ++ " should be ".data ++ [apos] ++
           "Napoleon Bonaparte".data ++ [apos],
         "Napolean Bonaparte (1769-1821): ally".data,
         some "Napoleon Bonaparte (1769–1821): ally".data⟩],
       some "Napoleon Bonaparte (1769–1821): ally".data) := by
  decide

/-- C4, counterexample — `"Foo (1-2-3): bar"`: the date group `1-2-3`
contains a digit and splits into three parts, so the codec returns the
raw text as the name (first half of the claim), but the validator files
the field as `missing_person`, not `unparseable` — the unparseable
branch additionally requires a space-flanked en/em dash in the value. -/
theorem C4_counterexample :
    parse_reference "Foo (1-2-3): bar".data =
      ("Foo (1-2-3): bar".data, none, none, none) ∧
    (splitOnDash "1-2-3".data).length = 3 ∧
    "1-2-3".data.any Char.isDigit = true ∧
    (RV.validate_person_reference [] "person.csv".data 2
        "related person 1".data "Foo (1-2-3): bar".data).1.map
      (fun e => (e.error_type, e.suggested_fix)) =
      [("missing_person".data, none)] ∧
    ¬("missing_person".data = "unparseable".data) := by
  refine ⟨by decide, by decide, by decide, by decide, by decide⟩

/-- C4, amended — when the last parenthesized group of the head contains
a digit and splits on dashes into three or more parts, both copies of the
codec return the (stripped) raw text as the name with no dates and no
description; the validator then classifies the field as `unparseable`
with no suggested fix exactly when the value also contains a
space-flanked en dash `" – "` or em dash `" — "`; otherwise the field is
classified through the lookup/fuzzy path and the resulting finding is
never `unparseable`. -/
theorem C4_amended_unparseable (value : List Char)
    (hstrip : pyStrip value = value) (hne : value ≠ [])
    (start : Nat) (ds : List Char)
    (hlast : (parenMatches (beforeSepOf value)).getLast? = some (start, ds))
    (hdig : ds.any Char.isDigit = true)
    (hsplit : 3 ≤ (splitOnDash ds).length) :
    parse_reference value = (value, none, none, none) ∧
    RV.parse_reference value = (value, none, none, none) ∧
    (∀ people csv_file row_num column,
      listIsInfixOf "(".data value = true →
      listIsInfixOf ")".data value = true →
      (listIsInfixOf " – ".data value = true ∨
        listIsInfixOf " — ".data value = true) →
      RV.validate_person_reference people csv_file row_num column value =
        ([⟨csv_file, row_num, column, "unparseable".data,
           "Cannot parse reference - please manually add colon separator".data,
           value, none⟩], none)) ∧
    (∀ people csv_file row_num column,
      ¬(listIsInfixOf " – ".data value = true ∨
        listIsInfixOf " — ".data value = true) →
      ∀ e ∈ (RV.validate_person_reference people csv_file row_num column
        value).1, e.error_type ≠ "unparseable".data) := by
  have hNotEmpty : ¬(value.isEmpty = true) := by
    simp only [List.isEmpty_iff]
    exact hne
  have hshape : ∃ p1 p2 p3 rest,
      splitOnDash ds = p1 :: p2 :: p3 :: rest := by
    rcases h : splitOnDash ds with _ | ⟨p1, _ | ⟨p2, _ | ⟨p3, rest⟩⟩⟩
    · rw [h] at hsplit; exact absurd hsplit (by simp)
    · rw [h] at hsplit; exact absurd hsplit (by simp)
    · rw [h] at hsplit; exact absurd hsplit (by simp)
    · exact ⟨p1, p2, p3, rest, rfl⟩
  obtain ⟨p1, p2, p3, rest, hl⟩ := hshape
  have hp : parse_reference value = (value, none, none, none) := by
    simp only [parse_reference, hstrip]
    rw [if_neg hNotEmpty, hlast]
    simp only []
    rw [if_pos hdig, hl]
  have hpRV : RV.parse_reference value = (value, none, none, none) := by
    rw [RV_parse_reference_eq, hp]
  refine ⟨hp, hpRV, ?_, ?_⟩
  · intro people csv_file row_num column h1 h2 h3
    unfold RV.validate_person_reference
    rw [hstrip, if_neg hNotEmpty, hpRV]
    simp only []
    rw [if_neg (by simpa using hne)]
    rw [if_pos ⟨trivial, h1, h2, h3⟩]
  · intro people csv_file row_num column hdash
    unfold RV.validate_person_reference
    rw [hstrip, if_neg hNotEmpty, hpRV]
    simp only []
    rw [if_neg (by simpa using hne)]
    rw [if_neg (fun h => hdash h.2.2.2)]
    cases hlk : rvLookup people value with
    | some person =>
      simp only []
      by_cases hdm : person.birth ≠ none ∨ person.death ≠ none
      · rw [if_pos hdm]
        intro e he
        simp only [List.mem_singleton] at he
        subst he
        exact (by decide : ¬("date_mismatch".data = "unparseable".data))
      · rw [if_neg hdm]
        by_cases hcf : RV.check_format value value none none none
        · rw [if_neg (by simp [hcf])]
          intro e he
          simp at he
        · rw [if_pos (by simp [hcf])]
          intro e he
          simp only [List.mem_singleton] at he
          subst he
          exact (by decide : ¬("format_issue".data = "unparseable".data))
    | none =>
      simp only []
      cases hfm : RV.fuzzy_match value (people.map Prod.fst) with
      | some mtch =>
        simp only []
        intro e he
        simp only [List.mem_singleton] at he
        subst he
        exact (by decide : ¬("name_mismatch".data = "unparseable".data))
      | none =>
        simp only []
        intro e he
        simp only [List.mem_singleton] at he
        subst he
        exact (by decide : ¬("missing_person".data = "unparseable".data))

/-- Witness for the amended C4 theorem at the spaced-dash input
`"Foo (1 – 2 – 3) – bar"`, which the validator does file as
`unparseable` with no fix. -/
theorem C4_amended_unparseable_witness :
    (RV.validate_person_reference [] "person.csv".data 2
        "related person 1".data "Foo (1 – 2 – 3) – bar".data =
      ([⟨"person.csv".data, 2, "related person 1".data, "unparseable".data,
         "Cannot parse reference - please manually add colon separator".data,
         "Foo (1 – 2 – 3) – bar".data, none⟩], none)) :=
  (C4_amended_unparseable "Foo (1 – 2 – 3) – bar".data (by decide)
      (by decide) 4 "1 – 2 – 3".data (by decide) (by decide)
      (by decide)).2.2.1 [] "person.csv".data 2 "related person 1".data
    (by decide) (by decide) (Or.inl (by decide))

/-! ## Format validator (`tools/validate_format.py`)

The `FormatValidator` works on one CSV table at a time: a list of
`DictReader` rows over a fixed `fieldnames` header.  A row is embedded as
a total function from column name to cell value (Python's `row.get(col,
"")`; `DictReader` rows carry exactly the `fieldnames` keys, so `row[col]`
for `col` in `fieldnames` and `row.get(col, "")` agree with the model).
Python string comparison is code-point lexicographic; `sorted` and
`list.sort` are stable, and a stable sort for a total, transitive
comparison has a unique output, so the stable insertion sort below
produces exactly the same list as CPython's timsort. -/

/-- Python string `<=`: code-point lexicographic comparison. -/
def strLeB : List Char → List Char → Bool
  | [], _ => true
  | _ :: _, [] => false
  | a :: as, b :: bs =>
    if a.toNat < b.toNat then true
    else if b.toNat < a.toNat then false
    else strLeB as bs

/-- Stable insertion: place `x` before the first element not strictly
below it (equal elements keep their original relative order, as in
Python's stable sorts). -/
def pyInsert {α : Type} (le : α → α → Bool) (x : α) : List α → List α
  | [] => [x]
  | y :: ys => if le x y then x :: y :: ys else y :: pyInsert le x ys

/-- Python `sorted(l)` with comparison `le`: stable insertion sort. -/
def pySorted {α : Type} (le : α → α → Bool) : List α → List α
  | [] => []
  | x :: xs => pyInsert le x (pySorted le xs)

theorem strLeB_nil_left (b : List Char) : strLeB [] b = true := by
  cases b <;> rfl

theorem strLeB_cons_nil (a : Char) (as : List Char) :
    strLeB (a :: as) [] = false := rfl

theorem strLeB_total : ∀ a b : List Char, (strLeB a b || strLeB b a) = true
  | [], b => by rw [strLeB_nil_left]; rfl
  | a :: as, [] => by rw [strLeB_nil_left]; simp
  | a :: as, b :: bs => by
    simp only [strLeB]
    by_cases h1 : a.toNat < b.toNat
    · simp [h1]
    · by_cases h2 : b.toNat < a.toNat
      · simp [h1, h2]
      · simp only [if_neg h1, if_neg h2]
        exact strLeB_total as bs

theorem strLeB_trans : ∀ a b c : List Char, strLeB a b = true →
    strLeB b c = true → strLeB a c = true
  | [], _, c, _, _ => strLeB_nil_left c
  | a :: as, [], _, h1, _ => absurd h1 (by simp [strLeB_cons_nil])
  | _ :: _, _ :: _, [], _, h2 => absurd h2 (by simp [strLeB_cons_nil])
  | a :: as, b :: bs, c :: cs, h1, h2 => by
    simp only [strLeB] at h1 h2 ⊢
    by_cases hab : a.toNat < b.toNat
    · by_cases hbc : b.toNat < c.toNat
      · rw [if_pos (Nat.lt_trans hab hbc)]
      · by_cases hcb : c.toNat < b.toNat
        · rw [if_neg hbc, if_pos hcb] at h2; cases h2
        · have hbceq : b.toNat = c.toNat :=
            Nat.le_antisymm (Nat.le_of_not_lt hcb) (Nat.le_of_not_lt hbc)
          rw [if_pos (by omega)]
    · by_cases hba : b.toNat < a.toNat
      · rw [if_neg hab, if_pos hba] at h1; cases h1
      · have habeq : a.toNat = b.toNat :=
          Nat.le_antisymm (Nat.le_of_not_lt hba) (Nat.le_of_not_lt hab)
        rw [if_neg hab, if_neg hba] at h1
        by_cases hbc : b.toNat < c.toNat
        · rw [if_pos (by omega)]
        · by_cases hcb : c.toNat < b.toNat
          · rw [if_neg hbc, if_pos hcb] at h2; cases h2
          · have hbceq : b.toNat = c.toNat :=
              Nat.le_antisymm (Nat.le_of_not_lt hcb) (Nat.le_of_not_lt hbc)
            rw [if_neg hbc, if_neg hcb] at h2
            rw [if_neg (by omega : ¬a.toNat < c.toNat),
              if_neg (by omega : ¬c.toNat < a.toNat)]
            exact strLeB_trans as bs cs h1 h2

theorem mem_pyInsert {α : Type} (le : α → α → Bool) (x y : α) :
    ∀ l, y ∈ pyInsert le x l ↔ y = x ∨ y ∈ l
  | [] => by simp [pyInsert]
  | z :: zs => by
    simp only [pyInsert]
    split
    · simp [List.mem_cons]
    · simp only [List.mem_cons, mem_pyInsert le x y zs]
      tauto

theorem mem_pySorted {α : Type} (le : α → α → Bool) (y : α) :
    ∀ l, y ∈ pySorted le l ↔ y ∈ l
  | [] => Iff.rfl
  | x :: xs => by
    simp only [pySorted, mem_pyInsert, mem_pySorted le y xs, List.mem_cons]

theorem length_pyInsert {α : Type} (le : α → α → Bool) (x : α) :
    ∀ l, (pyInsert le x l).length = l.length + 1
  | [] => rfl
  | y :: ys => by
    simp only [pyInsert]
    split
    · rfl
    · simp [length_pyInsert le x ys]

theorem length_pySorted {α : Type} (le : α → α → Bool) :
    ∀ l, (pySorted le l).length = l.length
  | [] => rfl
  | x :: xs => by
    simp [pySorted, length_pyInsert, length_pySorted le xs]

theorem pairwise_pyInsert {α : Type} (le : α → α → Bool)
    (htrans : ∀ a b c, le a b = true → le b c = true → le a c = true)
    (htot : ∀ a b, (le a b || le b a) = true) (x : α) :
    ∀ l, List.Pairwise (fun a b => le a b = true) l →
      List.Pairwise (fun a b => le a b = true) (pyInsert le x l)
  | [], _ => by simp [pyInsert]
  | y :: ys, h => by
    simp only [pyInsert]
    split
    · rename_i hxy
      refine List.Pairwise.cons ?_ h
      intro z hz
      rcases List.mem_cons.mp hz with rfl | hz2
      · exact hxy
      · exact htrans x y z hxy (List.rel_of_pairwise_cons h hz2)
    · rename_i hxy
      refine List.Pairwise.cons ?_ (pairwise_pyInsert le htrans htot x ys
        (List.Pairwise.of_cons h))
      intro z hz
      rcases (mem_pyInsert le x z ys).mp hz with hzx | hz2
      · have h2 := htot x y
        rw [Bool.eq_false_iff.mpr hxy] at h2
        rw [hzx]
        simpa using h2
      · exact List.rel_of_pairwise_cons h hz2

theorem pairwise_pySorted {α : Type} (le : α → α → Bool)
    (htrans : ∀ a b c, le a b = true → le b c = true → le a c = true)
    (htot : ∀ a b, (le a b || le b a) = true) :
    ∀ l, List.Pairwise (fun a b => le a b = true) (pySorted le l)
  | [] => List.Pairwise.nil
  | x :: xs =>
    pairwise_pyInsert le htrans htot x (pySorted le xs)
      (pairwise_pySorted le htrans htot xs)

theorem pyInsert_of_le {α : Type} {le : α → α → Bool} {x y : α} {ys : List α}
    (h : le x y = true) : pyInsert le x (y :: ys) = x :: y :: ys := by
  simp [pyInsert, h]

theorem pySorted_of_pairwise {α : Type} (le : α → α → Bool) :
    ∀ {l}, List.Pairwise (fun a b => le a b = true) l → pySorted le l = l
  | [], _ => rfl
  | x :: xs, h => by
    simp only [pySorted]
    rw [pySorted_of_pairwise le (List.Pairwise.of_cons h)]
    cases xs with
    | nil => rfl
    | cons y ys =>
      exact pyInsert_of_le (List.rel_of_pairwise_cons h (List.mem_cons_self y ys))

/-! ### `str.strip` output properties -/

theorem dropWhile_head_false {α : Type} {p : α → Bool} :
    ∀ {l : List α} {c : α}, (l.dropWhile p).head? = some c → p c = false
  | [], c => by simp
  | a :: as, c => by
    rw [List.dropWhile_cons]
    split
    · exact dropWhile_head_false (l := as)
    · rename_i hpa
      intro h
      cases h
      exact Bool.eq_false_iff.mpr hpa

theorem getLast?_dropWhile {α : Type} {p : α → Bool} :
    ∀ {l : List α}, l.dropWhile p ≠ [] →
      (l.dropWhile p).getLast? = l.getLast?
  | [], h => absurd rfl h
  | a :: as, h => by
    by_cases hp : p a = true
    · rw [List.dropWhile_cons, if_pos hp] at h ⊢
      rw [getLast?_dropWhile h]
      have hne : as ≠ [] := by
        intro he
        rw [he] at h
        exact h rfl
      cases as with
      | nil => exact absurd rfl hne
      | cons b bs => rw [List.getLast?_cons_cons]
    · rw [List.dropWhile_cons, if_neg hp]

theorem pyStrip_head_not_space {l : List Char} {c : Char}
    (h : (pyStrip l).head? = some c) : pyIsSpace c = false := by
  unfold pyStrip at h
  rw [List.head?_reverse] at h
  have hne : (((l.dropWhile pyIsSpace).reverse).dropWhile pyIsSpace) ≠ [] := by
    intro he
    rw [he] at h
    cases h
  rw [getLast?_dropWhile hne, List.getLast?_reverse] at h
  exact dropWhile_head_false h

theorem pyStrip_getLast_not_space {l : List Char} {c : Char}
    (h : (pyStrip l).getLast? = some c) : pyIsSpace c = false := by
  unfold pyStrip at h
  rw [List.getLast?_reverse] at h
  exact dropWhile_head_false h

/-- `str.strip` is idempotent. -/
theorem pyStrip_idem (l : List Char) : pyStrip (pyStrip l) = pyStrip l :=
  pyStrip_eq_self (fun _ hc => pyStrip_head_not_space hc)
    (fun _ hc => pyStrip_getLast_not_space hc)

/-- Stripping a string that starts with a plain space. -/
theorem pyStrip_space_cons (x : List Char) : pyStrip (' ' :: x) = pyStrip x := by
  unfold pyStrip
  rw [List.dropWhile_cons, if_pos (by decide)]

/-! ### Splitting on `","` and joining with `", "` -/

theorem findSubstrIdx_nil_comma : findSubstrIdx [','] [] = none := by decide

theorem findSubstrIdx_comma_head (s : List Char) :
    findSubstrIdx [','] (',' :: s) = some 0 := by
  unfold findSubstrIdx
  rw [show (',' :: s).length + 1 = (s.length + 1) + 1 from rfl,
    List.range_succ_eq_map, List.find?_cons]
  have h0 : [','].isPrefixOf ((',' :: s).drop 0) = true := by
    simp [List.isPrefixOf]
  rw [h0]

theorem findSubstrIdx_cons_comma (c : Char) (s : List Char) (hc : c ≠ ',') :
    findSubstrIdx [','] (c :: s) = (findSubstrIdx [','] s).map (· + 1) := by
  unfold findSubstrIdx
  rw [show (c :: s).length + 1 = (s.length + 1) + 1 from rfl,
    List.range_succ_eq_map, List.find?_cons]
  have h0 : [','].isPrefixOf ((c :: s).drop 0) = false := by
    simp only [List.drop_zero, List.isPrefixOf, List.isPrefixOf_cons₂]
    simp [BEq.beq]
    intro he
    exact hc he.symm
  rw [h0, List.find?_map]
  rfl

theorem findSubstrIdx_comma_none : ∀ {s : List Char}, ',' ∉ s →
    findSubstrIdx [','] s = none
  | [], _ => findSubstrIdx_nil_comma
  | c :: s, h => by
    have hc : c ≠ ',' := fun he => h (he ▸ List.mem_cons_self c s)
    rw [findSubstrIdx_cons_comma c s hc,
      findSubstrIdx_comma_none (fun hm => h (List.mem_cons_of_mem c hm))]
    rfl

theorem findSubstrIdx_comma_none_imp : ∀ {s : List Char},
    findSubstrIdx [','] s = none → ',' ∉ s
  | [], _ => by simp
  | c :: s, h => by
    by_cases hc : c = ','
    · subst hc
      rw [findSubstrIdx_comma_head] at h
      cases h
    · rw [findSubstrIdx_cons_comma c s hc] at h
      cases hfs : findSubstrIdx [','] s with
      | some j => rw [hfs] at h; cases h
      | none =>
        intro hm
        rcases List.mem_cons.mp hm with he | hm2
        · exact hc he.symm
        · exact findSubstrIdx_comma_none_imp hfs hm2

theorem findSubstrIdx_comma_append : ∀ {a : List Char}, ',' ∉ a →
    ∀ r, findSubstrIdx [','] (a ++ ',' :: r) = some a.length
  | [], _, r => by simpa using findSubstrIdx_comma_head r
  | c :: a, h, r => by
    have hc : c ≠ ',' := fun he => h (he ▸ List.mem_cons_self c a)
    rw [List.cons_append, findSubstrIdx_cons_comma _ _ hc,
      findSubstrIdx_comma_append (fun hm => h (List.mem_cons_of_mem c hm)) r]
    rfl

theorem findSubstrIdx_comma_take : ∀ {s : List Char} {i : Nat},
    findSubstrIdx [','] s = some i → ',' ∉ s.take i
  | [], i, h => by rw [findSubstrIdx_nil_comma] at h; cases h
  | c :: s, i, h => by
    by_cases hc : c = ','
    · subst hc
      rw [findSubstrIdx_comma_head] at h
      cases h
      simp
    · rw [findSubstrIdx_cons_comma c s hc] at h
      cases hfs : findSubstrIdx [','] s with
      | none => rw [hfs] at h; cases h
      | some j =>
        rw [hfs] at h
        cases h
        simp only []
        rw [List.take_succ_cons]
        intro hm
        rcases List.mem_cons.mp hm with he | hm2
        · exact hc he.symm
        · exact findSubstrIdx_comma_take hfs hm2

theorem findSubstrIdx_le {sep s : List Char} {i : Nat}
    (h : findSubstrIdx sep s = some i) : i ≤ s.length := by
  have hm := List.mem_of_find?_eq_some h
  exact Nat.lt_succ_iff.mp (List.mem_range.mp hm)

theorem pySplitAux_comma_congr : ∀ (fuel1 fuel2 : Nat) {s : List Char},
    s.length < fuel1 → s.length < fuel2 →
      pySplitAux [','] fuel1 s = pySplitAux [','] fuel2 s
  | 0, _, _, h1, _ => absurd h1 (Nat.not_lt_zero _)
  | _ + 1, 0, _, _, h2 => absurd h2 (Nat.not_lt_zero _)
  | f1 + 1, f2 + 1, s, h1, h2 => by
    simp only [pySplitAux]
    cases hfs : findSubstrIdx [','] s with
    | none => rfl
    | some i =>
      have hsne : s ≠ [] := by
        intro he
        rw [he, findSubstrIdx_nil_comma] at hfs
        cases hfs
      have hslen : 1 ≤ s.length := by
        cases s with
        | nil => exact absurd rfl hsne
        | cons a t => exact Nat.succ_le_succ (Nat.zero_le _)
      have hdrop : (s.drop (i + 1)).length < f1 := by
        rw [List.length_drop]
        omega
      have hdrop2 : (s.drop (i + 1)).length < f2 := by
        rw [List.length_drop]
        omega
      simp only [List.length_singleton]
      rw [pySplitAux_comma_congr f1 f2 hdrop hdrop2]

theorem pySplit_comma_nosplit {s : List Char} (h : ',' ∉ s) :
    pySplit [','] s = [s] := by
  unfold pySplit
  rw [show s.length + 1 = s.length + 1 from rfl]
  simp only [pySplitAux, findSubstrIdx_comma_none h]

theorem pySplit_comma_append {a : List Char} (ha : ',' ∉ a) (r : List Char) :
    pySplit [','] (a ++ ',' :: r) = a :: pySplit [','] r := by
  unfold pySplit
  have hlen : (a ++ ',' :: r).length + 1 = (a.length + r.length + 1) + 1 := by
    simp [List.length_append]
    omega
  rw [hlen]
  have htake : (a ++ ',' :: r).take a.length = a := List.take_left a (',' :: r)
  have hdrop : (a ++ ',' :: r).drop (a.length + [','].length) = r := by
    have he : a ++ ',' :: r = (a ++ [',']) ++ r := by simp
    rw [he, show a.length + [','].length = (a ++ [',']).length by simp]
    exact List.drop_left (a ++ [',']) r
  simp only [pySplitAux, findSubstrIdx_comma_append ha r, htake, hdrop]
  cases hfr : findSubstrIdx [','] r with
  | none => rfl
  | some i =>
    have hrne : r ≠ [] := by
      intro he
      rw [he, findSubstrIdx_nil_comma] at hfr
      cases hfr
    have hrlen : 1 ≤ r.length := by
      cases r with
      | nil => exact absurd rfl hrne
      | cons b t => exact Nat.succ_le_succ (Nat.zero_le _)
    simp only []
    rw [pySplitAux_comma_congr (a.length + r.length) r.length
      (by rw [List.length_drop]; simp only [List.length_singleton]; omega)
      (by rw [List.length_drop]; simp only [List.length_singleton]; omega)]

theorem mem_pySplitAux_comma : ∀ (fuel : Nat) {s : List Char},
    s.length < fuel → ∀ part ∈ pySplitAux [','] fuel s, ',' ∉ part
  | 0, _, h1, _, _ => absurd h1 (Nat.not_lt_zero _)
  | f + 1, s, h1, part, hp => by
    simp only [pySplitAux] at hp
    cases hfs : findSubstrIdx [','] s with
    | none =>
      rw [hfs] at hp
      rcases List.mem_singleton.mp hp with rfl
      exact findSubstrIdx_comma_none_imp hfs
    | some i =>
      rw [hfs] at hp
      rcases List.mem_cons.mp hp with rfl | hp2
      · exact findSubstrIdx_comma_take hfs
      · have hsne : s ≠ [] := by
          intro he
          rw [he, findSubstrIdx_nil_comma] at hfs
          cases hfs
        have hslen : 1 ≤ s.length := by
          cases s with
          | nil => exact absurd rfl hsne
          | cons a t => exact Nat.succ_le_succ (Nat.zero_le _)
        have hdrop : (s.drop (i + 1)).length < f := by
          rw [List.length_drop]
          omega
        exact mem_pySplitAux_comma f hdrop part hp2

theorem mem_pySplit_comma {s part : List Char} (hp : part ∈ pySplit [','] s) :
    ',' ∉ part :=
  mem_pySplitAux_comma (s.length + 1) (Nat.lt_succ_self _) part hp

theorem intercalate_comma_cons₂ (a b : List Char) (t : List (List Char)) :
    List.intercalate ", ".data (a :: b :: t) =
      a ++ ", ".data ++ List.intercalate ", ".data (b :: t) := by
  simp [List.intercalate, List.intersperse, List.append_assoc]

theorem intercalate_comma_single (a : List Char) :
    List.intercalate ", ".data [a] = a := by
  simp [List.intercalate, List.intersperse]

/-- `", ".join(l).split(",")` recovers the pieces, each with the joining
space glued to the front (for comma-free pieces). -/
theorem pySplit_comma_intercalate : ∀ (ls : List (List Char)) (a : List Char),
    ',' ∉ a → (∀ x ∈ ls, ',' ∉ x) →
      pySplit [','] (List.intercalate ", ".data (a :: ls)) =
        a :: ls.map (fun x => ' ' :: x)
  | [], a, ha, _ => by
    rw [intercalate_comma_single, pySplit_comma_nosplit ha]
    rfl
  | x :: t, a, ha, hls => by
    rw [intercalate_comma_cons₂]
    have hsh : a ++ ", ".data ++ List.intercalate ", ".data (x :: t) =
        a ++ ',' :: (' ' :: List.intercalate ", ".data (x :: t)) := by
      simp [List.append_assoc]
    rw [hsh, pySplit_comma_append ha]
    have hsi : ' ' :: List.intercalate ", ".data (x :: t) =
        List.intercalate ", ".data ((' ' :: x) :: t) := by
      cases t with
      | nil => rw [intercalate_comma_single, intercalate_comma_single]
      | cons y t2 =>
        rw [intercalate_comma_cons₂, intercalate_comma_cons₂]
        simp
    rw [hsi, pySplit_comma_intercalate t (' ' :: x)
      (by
        intro hm
        rcases List.mem_cons.mp hm with he | hm2
        · cases he
        · exact hls x (List.mem_cons_self x t) hm2)
      (fun z hz => hls z (List.mem_cons_of_mem x hz))]
    rfl

theorem intercalate_comma_head_cases (a : List Char) (t : List (List Char))
    (hne : ¬(a = [] ∧ t = [])) :
    ∀ c, (List.intercalate ", ".data (a :: t)).head? = some c →
      c = ',' ∨ a.head? = some c := by
  cases a with
  | nil =>
    cases t with
    | nil => exact absurd ⟨rfl, rfl⟩ hne
    | cons x t2 =>
      rw [intercalate_comma_cons₂]
      intro c hc
      simp only [List.nil_append] at hc
      cases hc
      exact Or.inl rfl
  | cons c0 a2 =>
    cases t with
    | nil =>
      rw [intercalate_comma_single]
      intro c hc
      exact Or.inr hc
    | cons x t2 =>
      rw [intercalate_comma_cons₂]
      intro c hc
      simp only [List.cons_append, List.head?_cons] at hc ⊢
      exact Or.inr hc

theorem intercalate_comma_getLast_ne :
    ∀ (t : List (List Char)) (a : List Char),
      (a :: t).getLast (List.cons_ne_nil a t) ≠ [] →
        (List.intercalate ", ".data (a :: t)).getLast? =
          ((a :: t).getLast (List.cons_ne_nil a t)).getLast?
  | [], a, _ => by
    rw [intercalate_comma_single]
    rfl
  | x :: t2, a, h => by
    have hlast : (a :: x :: t2).getLast (List.cons_ne_nil a (x :: t2)) =
        (x :: t2).getLast (List.cons_ne_nil x t2) :=
      List.getLast_cons (List.cons_ne_nil x t2)
    rw [hlast] at h ⊢
    rw [intercalate_comma_cons₂, List.getLast?_append,
      intercalate_comma_getLast_ne t2 x h]
    obtain ⟨z, hz⟩ : ∃ z, ((x :: t2).getLast (List.cons_ne_nil x t2)).getLast? =
        some z := by
      cases hgl : ((x :: t2).getLast (List.cons_ne_nil x t2)).getLast? with
      | none =>
        exact absurd (List.getLast?_eq_none_iff.mp hgl) h
      | some z => exact ⟨z, rfl⟩
    rw [hz]
    rfl

/-- The last element of a `strLeB`-sorted list of strings is nonempty as
soon as any element is (the empty string is minimal for `strLeB`). -/
theorem pairwise_strLeB_getLast_ne_nil :
    ∀ {l : List (List Char)} (hl : l ≠ []),
      List.Pairwise (fun a b => strLeB a b = true) l →
        ∀ x ∈ l, x ≠ [] → l.getLast hl ≠ []
  | [], hl, _, _, _, _ => absurd rfl hl
  | a :: t, _, hp, x, hx, hxne => by
    cases t with
    | nil =>
      rcases List.mem_singleton.mp hx with rfl
      simpa using hxne
    | cons y t2 =>
      rw [List.getLast_cons (List.cons_ne_nil y t2)]
      rcases List.mem_cons.mp hx with rfl | hx2
      · have hrel : strLeB x ((y :: t2).getLast (List.cons_ne_nil y t2)) =
            true :=
          List.rel_of_pairwise_cons hp (List.getLast_mem (List.cons_ne_nil y t2))
        intro hnil
        rw [hnil] at hrel
        cases x with
        | nil => exact hxne rfl
        | cons c cs => rw [strLeB_cons_nil] at hrel; cases hrel
      · exact pairwise_strLeB_getLast_ne_nil (List.cons_ne_nil y t2)
          (List.Pairwise.of_cons hp) x hx2 hxne

/-- `", ".join` of a sorted list of stripped strings, at least one of them
nonempty, is itself stripped (its first and last characters are
non-space). -/
theorem joinComma_stripped (l : List (List Char))
    (hstrip : ∀ x ∈ l, pyStrip x = x)
    (hpair : List.Pairwise (fun a b => strLeB a b = true) l)
    (x0 : List Char) (hx0 : x0 ∈ l) (hx0ne : x0 ≠ []) :
    pyStrip (joinComma l) = joinComma l := by
  cases l with
  | nil => cases hx0
  | cons a t =>
    unfold joinComma
    apply pyStrip_eq_self
    · intro c hc
      have hne : ¬(a = [] ∧ t = []) := by
        rintro ⟨rfl, rfl⟩
        rcases List.mem_singleton.mp hx0 with rfl
        exact hx0ne rfl
      rcases intercalate_comma_head_cases a t hne c hc with rfl | hhead
      · decide
      · have : (pyStrip a).head? = some c := by
          rw [hstrip a (List.mem_cons_self a t)]
          exact hhead
        exact pyStrip_head_not_space this
    · intro c hc
      have hgl : (a :: t).getLast (List.cons_ne_nil a t) ≠ [] :=
        pairwise_strLeB_getLast_ne_nil (List.cons_ne_nil a t) hpair x0 hx0 hx0ne
      rw [intercalate_comma_getLast_ne t a hgl] at hc
      have : (pyStrip ((a :: t).getLast (List.cons_ne_nil a t))).getLast? =
          some c := by
        rw [hstrip _ (List.getLast_mem (List.cons_ne_nil a t))]
        exact hc
      exact pyStrip_getLast_not_space this

namespace FV

/-- A CSV row: total map from column name to cell value.  `DictReader`
rows carry exactly the `fieldnames` keys, so `row[col]` (for `col` in
`fieldnames`) and `row.get(col, "")` both correspond to applying the
function. -/
def Row : Type := List Char → List Char

/-- `[f"related person {i}" for i in range(1, 6)]`. -/
def person_cols : List (List Char) :=
  ["related person 1".data, "related person 2".data, "related person 3".data,
   "related person 4".data, "related person 5".data]

/-- `[f"related event {i}" for i in range(1, 6)]`. -/
def event_cols : List (List Char) :=
  ["related event 1".data, "related event 2".data, "related event 3".data,
   "related event 4".data, "related event 5".data]

/-- The sort key `parse_reference(r)[0].lower()` used for reference
ordering (both in `utils.sort_row_references` and in
`check_reference_order`). -/
def refKey (r : List Char) : List Char := pyLower (parse_reference r).1

/-- `FormatValidator.check_tags_ordering` (`tools/validate_format.py`
lines 123–148).  The guard `"tags" not in row` is membership of `"tags"`
in the header. -/
def check_tags_ordering (csv_name : List Char) (row_num : Nat) (row : Row)
    (fieldnames : List (List Char)) : List RV.ValidationError :=
  if "tags".data ∈ fieldnames then
    let tags_value := row "tags".data
    if tags_value.isEmpty || (pyStrip tags_value).isEmpty then []
    else
      let tags := (pySplit [','] tags_value).map pyStrip
      let sorted_tags := pySorted strLeB tags
      if tags ≠ sorted_tags then
        [⟨csv_name, row_num, "tags".data, "tags_not_sorted".data,
          "Tags are not alphabetically sorted".data, tags_value,
          some (joinComma sorted_tags)⟩]
      else []
  else []

/-- `FormatValidator.check_whitespace` (lines 150–164): `row.items()`
iterates the `fieldnames` in header order. -/
def check_whitespace (csv_name : List Char) (row_num : Nat) (row : Row)
    (fieldnames : List (List Char)) : List RV.ValidationError :=
  fieldnames.filterMap (fun column =>
    let value := row column
    if value ≠ pyStrip value then
      some ⟨csv_name, row_num, column, "whitespace".data,
        "Field has leading or trailing whitespace".data, value,
        some (pyStrip value)⟩
    else none)

/-- The `duplicate_columns` table of `check_duplicates` (lines 169–176);
`.get(csv_name, [])` yields `[]` for `qa.csv`, `cloze.csv` and anything
else. -/
def duplicate_columns (csv_name : List Char) : List (List Char) :=
  if csv_name = "event.csv".data then ["name".data, "summary".data]
  else if csv_name = "person.csv".data then ["name".data, "known for".data]
  else []

/-- Python `str(row_nums)` for a list of ints, e.g. `"[2, 3]"`. -/
def reprNatList (l : List Nat) : List Char :=
  '[' :: (List.intercalate ", ".data (l.map natDigits) ++ [']'])

/-- One step of `seen[value].append(row_num)` on an insertion-ordered
`defaultdict(list)`. -/
def seenAdd (seen : List (List Char × List Nat)) (v : List Char) (rn : Nat) :
    List (List Char × List Nat) :=
  if seen.any (fun p => decide (p.1 = v)) then
    seen.map (fun p => if p.1 = v then (p.1, p.2 ++ [rn]) else p)
  else seen ++ [(v, [rn])]

/-- `FormatValidator.check_duplicates` (lines 166–202).  The source
guard `column not in rows[0]` is header membership (and raises
`IndexError` on an empty `event.csv`/`person.csv` table, a state the
theorems below exclude by hypothesis). -/
def check_duplicates (csv_name : List Char) (rows : List Row)
    (fieldnames : List (List Char)) : List RV.ValidationError :=
  (duplicate_columns csv_name).flatMap (fun column =>
    if column ∈ fieldnames then
      let seen := (List.enumFrom 2 rows).foldl (fun s p =>
        let value := pyStrip (p.2 column)
        if value.isEmpty then s else seenAdd s value p.1) []
      seen.flatMap (fun q =>
        if q.2.length > 1 then
          q.2.map (fun rn =>
            ⟨csv_name, rn, column, "duplicate".data,
              "Duplicate value found in rows ".data ++ reprNatList q.2,
              q.1, none⟩)
        else [])
    else [])

/-- First index (from `i`) where the two lists differ, with the differing
values — the `for i, (current, expected) in enumerate(zip(...))` loop of
`check_row_order`, which reports only the first mismatch. -/
def firstDiff : Nat → List (List Char) → List (List Char) →
    Option (Nat × List Char × List Char)
  | _, [], _ => none
  | _, _, [] => none
  | i, x :: xs, y :: ys =>
    if x = y then firstDiff (i + 1) xs ys else some (i, x, y)

/-- Comparison underlying `sorted(values, key=str.lower)`. -/
def lowLe (a b : List Char) : Bool := strLeB (pyLower a) (pyLower b)

/-- `FormatValidator.check_row_order` (lines 204–227). -/
def check_row_order (csv_name : List Char) (rows : List Row)
    (fieldnames : List (List Char)) : List RV.ValidationError :=
  if rows.isEmpty || decide (fieldnames.length < 2) then []
  else
    let sort_key := fieldnames.getD 1 []
    let values := rows.map (fun r => r sort_key)
    let sorted_values := pySorted lowLe values
    match firstDiff 0 values sorted_values with
    | none => []
    | some (i, current, expected) =>
      [⟨csv_name, i + 2, sort_key, "row_order".data,
        "Row out of order: ".data ++ [apos] ++ current.take 30 ++ [apos] ++
          " should come after rows starting with ".data ++ [apos] ++
          expected.take 20 ++ "...".data ++ [apos],
        current, none⟩]

/-- `FormatValidator.check_reference_order` (lines 229–267). -/
def check_reference_order (csv_name : List Char) (row_num : Nat)
    (row : Row) : List RV.ValidationError :=
  let person_refs := person_cols.map row
  let person_refs_nonempty := person_refs.filter (fun r => !(pyStrip r).isEmpty)
  let person_names := person_refs_nonempty.map refKey
  let person_errs :=
    if person_names ≠ pySorted strLeB person_names then
      [⟨csv_name, row_num, "related person 1-5".data, "reference_order".data,
        "Related persons not in alphabetical order".data,
        joinComma (person_names.take 3) ++ "...".data, none⟩]
    else []
  let event_refs := event_cols.map row
  let event_refs_nonempty := event_refs.filter (fun r => !(pyStrip r).isEmpty)
  let event_names := event_refs_nonempty.map refKey
  let event_errs :=
    if event_names ≠ pySorted strLeB event_names then
      [⟨csv_name, row_num, "related event 1-5".data, "reference_order".data,
        "Related events not in alphabetical order".data,
        joinComma (event_names.take 3) ++ "...".data, none⟩]
    else []
  person_errs ++ event_errs

/-- `FormatValidator.validate_csv` (lines 25–50) for one table, in source
order: duplicates, row order, then per-row tags / whitespace / reference
order (rows numbered from 2).  `check_quoting` reads the raw serialized
file, not the parsed rows, so it lies outside this row-level model; its
findings never enter the fix map (`auto_fix` skips `error_type ==
"quoting"`). -/
def validate_csv (csv_name : List Char) (fieldnames : List (List Char))
    (rows : List Row) : List RV.ValidationError :=
  check_duplicates csv_name rows fieldnames ++
  check_row_order csv_name rows fieldnames ++
  (List.enumFrom 2 rows).flatMap (fun p =>
    check_tags_ordering csv_name p.1 p.2 fieldnames ++
    check_whitespace csv_name p.1 p.2 fieldnames ++
    check_reference_order csv_name p.1 p.2)

/-- One step of collecting `row_fixes_by_file` in `auto_fix` (lines
301–309): a non-quoting error with a suggested fix updates the map at
`(row_num, column)`. -/
def fixStep (m : Nat × List Char → Option (List Char))
    (e : RV.ValidationError) : Nat × List Char → Option (List Char) :=
  if e.error_type = "quoting".data then m
  else
    match e.suggested_fix with
    | some f => fun k => if k = (e.row_num, e.column) then some f else m k
    | none => m

/-- The fix map of `FormatValidator.auto_fix` (lines 299–309): iterate the
errors in order, keeping non-quoting suggested fixes keyed by
`(row_num, column)`; later entries overwrite earlier ones. -/
def buildFixes (errors : List RV.ValidationError) :
    Nat × List Char → Option (List Char) :=
  errors.foldl fixStep (fun _ => none)

/-- `utils.sort_row_references` (`tools/utils.py` lines 140–158): pack the
nonempty person/event references, sorted by `parse_reference(r)[0]
.lower()` (stable), back into the five slots, padding with `""`; the ten
slot assignments of the two `for i, col in enumerate(...)` loops are
written out explicitly. -/
def sort_row_references (row : Row) : Row :=
  let person_refs :=
    pySorted (fun a b => strLeB (refKey a) (refKey b))
      ((person_cols.map row).filter (fun r => !(pyStrip r).isEmpty))
  let event_refs :=
    pySorted (fun a b => strLeB (refKey a) (refKey b))
      ((event_cols.map row).filter (fun r => !(pyStrip r).isEmpty))
  fun col =>
    if col = "related person 1".data then person_refs.getD 0 []
    else if col = "related person 2".data then person_refs.getD 1 []
    else if col = "related person 3".data then person_refs.getD 2 []
    else if col = "related person 4".data then person_refs.getD 3 []
    else if col = "related person 5".data then person_refs.getD 4 []
    else if col = "related event 1".data then event_refs.getD 0 []
    else if col = "related event 2".data then event_refs.getD 1 []
    else if col = "related event 3".data then event_refs.getD 2 []
    else if col = "related event 4".data then event_refs.getD 3 []
    else if col = "related event 5".data then event_refs.getD 4 []
    else row col

/-- The per-row fix application of `apply_fixes` (lines 348–352): `for
column in row.keys(): if (row_num, column) in fixes: row[column] = ...`
(only header columns are keys of a `DictReader` row). -/
def fixRow (fieldnames : List (List Char))
    (fixes : Nat × List Char → Option (List Char)) (p : Nat × Row) : Row :=
  fun col =>
    if col ∈ fieldnames then
      match fixes (p.1, col) with
      | some f => f
      | none => p.2 col
    else p.2 col

/-- `FormatValidator.apply_fixes` (lines 340–364) on the in-memory table:
apply the keyed cell fixes, re-pack the reference slots of every row,
then sort the rows by the lower-cased second column.  The final
`writer.writerows` serializes the same rows, so the next validation pass
sees exactly this list. -/
def apply_fixes (fieldnames : List (List Char)) (rows : List Row)
    (fixes : Nat × List Char → Option (List Char)) : List Row :=
  let rows1 := (List.enumFrom 2 rows).map (fixRow fieldnames fixes)
  let rows2 := rows1.map sort_row_references
  if rows2.isEmpty || decide (fieldnames.length ≤ 1) then rows2
  else
    let sort_key := fieldnames.getD 1 []
    pySorted (fun r1 r2 => lowLe (r1 sort_key) (r2 sort_key)) rows2

/-- One full `--auto-fix` run on a single table: validate, and if there
are any findings, apply the collected fixes (`auto_fix` returns
immediately when `self.errors` is empty, and only files with errors are
rewritten). -/
def auto_fix_pass (csv_name : List Char) (fieldnames : List (List Char))
    (rows : List Row) : List Row :=
  let errors := validate_csv csv_name fieldnames rows
  if errors.isEmpty then rows
  else apply_fixes fieldnames rows (buildFixes errors)

/-- Number of findings of a given kind. -/
def countType (errors : List RV.ValidationError) (t : List Char) : Nat :=
  (errors.filter (fun e => decide (e.error_type = t))).length

end FV

/-! ### Shape of each check's findings -/

/-- The cleaned tag list `[tag.strip() for tag in tags_value.split(",")]`. -/
def FV.tagsOf (v : List Char) : List (List Char) :=
  (pySplit [','] v).map pyStrip

/-- `sorted(tags)`. -/
def FV.sortedTagsOf (v : List Char) : List (List Char) :=
  pySorted strLeB (FV.tagsOf v)

/-- The single possible finding of `check_tags_ordering`. -/
def FV.tagsErr (csv_name : List Char) (row_num : Nat) (v : List Char) :
    RV.ValidationError :=
  ⟨csv_name, row_num, "tags".data, "tags_not_sorted".data,
    "Tags are not alphabetically sorted".data, v,
    some (joinComma (FV.sortedTagsOf v))⟩

theorem mem_check_tags {e : RV.ValidationError} {n : List Char} {rn : Nat}
    {row : FV.Row} {fn : List (List Char)}
    (he : e ∈ FV.check_tags_ordering n rn row fn) :
    "tags".data ∈ fn ∧ (row "tags".data).isEmpty = false ∧
      (pyStrip (row "tags".data)).isEmpty = false ∧
      FV.tagsOf (row "tags".data) ≠ FV.sortedTagsOf (row "tags".data) ∧
      e = FV.tagsErr n rn (row "tags".data) := by
  unfold FV.check_tags_ordering at he
  split at he
  · rename_i hfn
    simp only [] at he
    cases hg : ((row "tags".data).isEmpty || (pyStrip (row "tags".data)).isEmpty)
    · rw [hg] at he
      simp only [Bool.false_eq_true, if_false] at he
      split at he
      · rename_i hne
        rcases List.mem_singleton.mp he with rfl
        rcases Bool.or_eq_false_iff.mp hg with ⟨h1, h2⟩
        exact ⟨hfn, h1, h2, hne, rfl⟩
      · cases he
    · rw [hg] at he
      simp only [if_true] at he
      cases he
  · cases he

theorem check_tags_mem_self {n : List Char} {rn : Nat} {row : FV.Row}
    {fn : List (List Char)} (hfn : "tags".data ∈ fn)
    (h1 : (row "tags".data).isEmpty = false)
    (h2 : (pyStrip (row "tags".data)).isEmpty = false)
    (h3 : FV.tagsOf (row "tags".data) ≠ FV.sortedTagsOf (row "tags".data)) :
    FV.tagsErr n rn (row "tags".data) ∈ FV.check_tags_ordering n rn row fn := by
  unfold FV.check_tags_ordering
  rw [if_pos hfn]
  simp only []
  rw [Bool.or_eq_false_iff.mpr ⟨h1, h2⟩]
  simp only [Bool.false_eq_true, if_false]
  split
  · exact List.mem_singleton.mpr rfl
  · rename_i hne
    exact absurd h3 hne

/-- `check_tags_ordering` looks only at the `tags` cell. -/
theorem check_tags_congr {n : List Char} {rn : Nat} {row1 row2 : FV.Row}
    {fn : List (List Char)} (h : row1 "tags".data = row2 "tags".data) :
    FV.check_tags_ordering n rn row1 fn = FV.check_tags_ordering n rn row2 fn := by
  unfold FV.check_tags_ordering
  rw [h]

theorem mem_check_whitespace {e : RV.ValidationError} {n : List Char}
    {rn : Nat} {row : FV.Row} {fn : List (List Char)}
    (he : e ∈ FV.check_whitespace n rn row fn) :
    ∃ col ∈ fn, row col ≠ pyStrip (row col) ∧
      e = ⟨n, rn, col, "whitespace".data,
        "Field has leading or trailing whitespace".data, row col,
        some (pyStrip (row col))⟩ := by
  unfold FV.check_whitespace at he
  rcases List.mem_filterMap.mp he with ⟨col, hcol, hfc⟩
  simp only [] at hfc
  split at hfc
  · rename_i hne
    cases hfc
    exact ⟨col, hcol, hne, rfl⟩
  · cases hfc

theorem check_whitespace_mem_self {n : List Char} {rn : Nat} {row : FV.Row}
    {fn : List (List Char)} {col : List Char} (hcol : col ∈ fn)
    (hne : row col ≠ pyStrip (row col)) :
    (⟨n, rn, col, "whitespace".data,
      "Field has leading or trailing whitespace".data, row col,
      some (pyStrip (row col))⟩ : RV.ValidationError) ∈
        FV.check_whitespace n rn row fn := by
  unfold FV.check_whitespace
  refine List.mem_filterMap.mpr ⟨col, hcol, ?_⟩
  simp only []
  rw [if_pos hne]

theorem mem_check_duplicates {e : RV.ValidationError} {n : List Char}
    {rows : List FV.Row} {fn : List (List Char)}
    (he : e ∈ FV.check_duplicates n rows fn) :
    e.error_type = "duplicate".data ∧ e.suggested_fix = none := by
  unfold FV.check_duplicates at he
  rcases List.mem_flatMap.mp he with ⟨col, _, he2⟩
  split at he2
  · rcases List.mem_flatMap.mp he2 with ⟨q, _, he3⟩
    split at he3
    · rcases List.mem_map.mp he3 with ⟨rn, _, rfl⟩
      exact ⟨rfl, rfl⟩
    · cases he3
  · cases he2

theorem mem_check_row_order {e : RV.ValidationError} {n : List Char}
    {rows : List FV.Row} {fn : List (List Char)}
    (he : e ∈ FV.check_row_order n rows fn) :
    e.error_type = "row_order".data ∧ e.suggested_fix = none := by
  unfold FV.check_row_order at he
  split at he
  · cases he
  · simp only [] at he
    split at he
    · cases he
    · rcases List.mem_singleton.mp he with rfl
      exact ⟨rfl, rfl⟩

theorem mem_check_reference_order {e : RV.ValidationError} {n : List Char}
    {rn : Nat} {row : FV.Row} (he : e ∈ FV.check_reference_order n rn row) :
    e.error_type = "reference_order".data ∧ e.suggested_fix = none := by
  unfold FV.check_reference_order at he
  simp only [] at he
  rcases List.mem_append.mp he with h2 | h2 <;>
    · split at h2
      · rcases List.mem_singleton.mp h2 with rfl
        exact ⟨rfl, rfl⟩
      · cases h2

theorem mem_validate_cases {e : RV.ValidationError} {n : List Char}
    {fn : List (List Char)} {rows : List FV.Row}
    (he : e ∈ FV.validate_csv n fn rows) :
    e ∈ FV.check_duplicates n rows fn ∨ e ∈ FV.check_row_order n rows fn ∨
      ∃ p ∈ List.enumFrom 2 rows,
        e ∈ FV.check_tags_ordering n p.1 p.2 fn ∨
        e ∈ FV.check_whitespace n p.1 p.2 fn ∨
        e ∈ FV.check_reference_order n p.1 p.2 := by
  unfold FV.validate_csv at he
  rcases List.mem_append.mp he with h1 | h1
  · rcases List.mem_append.mp h1 with h2 | h2
    · exact Or.inl h2
    · exact Or.inr (Or.inl h2)
  · rcases List.mem_flatMap.mp h1 with ⟨p, hp, h2⟩
    rcases List.mem_append.mp h2 with h3 | h3
    · rcases List.mem_append.mp h3 with h4 | h4
      · exact Or.inr (Or.inr ⟨p, hp, Or.inl h4⟩)
      · exact Or.inr (Or.inr ⟨p, hp, Or.inr (Or.inl h4)⟩)
    · exact Or.inr (Or.inr ⟨p, hp, Or.inr (Or.inr h3)⟩)

theorem validate_mem_of_row {e : RV.ValidationError} {n : List Char}
    {fn : List (List Char)} {rows : List FV.Row} {p : Nat × FV.Row}
    (hp : p ∈ List.enumFrom 2 rows)
    (he : e ∈ FV.check_tags_ordering n p.1 p.2 fn ∨
      e ∈ FV.check_whitespace n p.1 p.2 fn ∨
      e ∈ FV.check_reference_order n p.1 p.2) :
    e ∈ FV.validate_csv n fn rows := by
  unfold FV.validate_csv
  refine List.mem_append.mpr (Or.inr ?_)
  refine List.mem_flatMap.mpr ⟨p, hp, ?_⟩
  show e ∈ FV.check_tags_ordering n p.1 p.2 fn ++
    FV.check_whitespace n p.1 p.2 fn ++ FV.check_reference_order n p.1 p.2
  simp only [List.mem_append]
  tauto

/-! ### The fix map -/

theorem fixStep_isSome_mono (m : Nat × List Char → Option (List Char))
    (e : RV.ValidationError) (k : Nat × List Char)
    (h : (m k).isSome = true) : ((FV.fixStep m e) k).isSome = true := by
  unfold FV.fixStep
  split
  · exact h
  · cases hsf : e.suggested_fix with
    | none => simp only []; exact h
    | some f =>
      simp only []
      split
      · rfl
      · exact h

theorem foldl_fixStep_isSome :
    ∀ (errs : List RV.ValidationError) (m : Nat × List Char → Option (List Char))
      (k : Nat × List Char), (m k).isSome = true →
        ((errs.foldl FV.fixStep m) k).isSome = true
  | [], _, _, h => h
  | e :: t, m, k, h =>
    foldl_fixStep_isSome t (FV.fixStep m e) k (fixStep_isSome_mono m e k h)

theorem foldl_fixStep_isSome_of_mem :
    ∀ (errs : List RV.ValidationError)
      (m : Nat × List Char → Option (List Char)) {e : RV.ValidationError}
      {f : List Char}, e ∈ errs → e.error_type ≠ "quoting".data →
        e.suggested_fix = some f →
        ((errs.foldl FV.fixStep m) (e.row_num, e.column)).isSome = true
  | [], _, _, _, he, _, _ => absurd he (List.not_mem_nil _)
  | e0 :: t, m, e, f, he, ht, hf => by
    rcases List.mem_cons.mp he with rfl | he2
    · apply foldl_fixStep_isSome t
      unfold FV.fixStep
      rw [if_neg ht, hf]
      simp
    · exact foldl_fixStep_isSome_of_mem t (FV.fixStep m e0) he2 ht hf

theorem buildFixes_isSome_of_mem {errs : List RV.ValidationError}
    {e : RV.ValidationError} {f : List Char} (he : e ∈ errs)
    (ht : e.error_type ≠ "quoting".data) (hf : e.suggested_fix = some f) :
    (FV.buildFixes errs (e.row_num, e.column)).isSome = true :=
  foldl_fixStep_isSome_of_mem errs (fun _ => none) he ht hf

theorem foldl_fixStep_some :
    ∀ (errs : List RV.ValidationError)
      (m : Nat × List Char → Option (List Char)) {k : Nat × List Char}
      {f : List Char}, (errs.foldl FV.fixStep m) k = some f →
        (∃ e ∈ errs, e.suggested_fix = some f ∧ k = (e.row_num, e.column) ∧
          e.error_type ≠ "quoting".data) ∨ m k = some f
  | [], _, _, _, h => Or.inr h
  | e0 :: t, m, k, f, h => by
    rcases foldl_fixStep_some t (FV.fixStep m e0) h with ⟨e, he, h1, h2, h3⟩ | hm
    · exact Or.inl ⟨e, List.mem_cons_of_mem e0 he, h1, h2, h3⟩
    · unfold FV.fixStep at hm
      split at hm
      · exact Or.inr hm
      · rename_i hq
        cases hsf : e0.suggested_fix with
        | none => rw [hsf] at hm; exact Or.inr hm
        | some f0 =>
          rw [hsf] at hm
          simp only [] at hm
          split at hm
          · rename_i hk
            cases hm
            exact Or.inl ⟨e0, List.mem_cons_self e0 t, hsf, hk, hq⟩
          · exact Or.inr hm

theorem buildFixes_some {errs : List RV.ValidationError} {k : Nat × List Char}
    {f : List Char} (h : FV.buildFixes errs k = some f) :
    ∃ e ∈ errs, e.suggested_fix = some f ∧ k = (e.row_num, e.column) ∧
      e.error_type ≠ "quoting".data := by
  rcases foldl_fixStep_some errs (fun _ => none) h with h1 | h2
  · exact h1
  · cases h2

/-! ### Every stored fix is a stripped string -/

theorem mem_pyStrip {l : List Char} {c : Char} (h : c ∈ pyStrip l) : c ∈ l := by
  unfold pyStrip at h
  rw [List.mem_reverse] at h
  have h2 := (List.dropWhile_sublist (l := (List.dropWhile pyIsSpace l).reverse)
    pyIsSpace).subset h
  rw [List.mem_reverse] at h2
  exact (List.dropWhile_sublist pyIsSpace).subset h2

theorem pySorted_strLeB_of_all_nil {l : List (List Char)}
    (h : ∀ x ∈ l, x = []) : pySorted strLeB l = l :=
  pySorted_of_pairwise strLeB
    (List.pairwise_of_forall_mem_list (fun a ha b hb => by
      rw [h a ha, h b hb]; rfl))

/-- Any `suggested_fix` produced by `validate_csv` is already stripped
(whitespace fixes by idempotence of `strip`, tag fixes because the join
of the sorted, stripped, not-all-empty tags starts and ends with a
non-space character). -/
theorem validate_fix_stripped {e : RV.ValidationError} {f n : List Char}
    {fn : List (List Char)} {rows : List FV.Row}
    (he : e ∈ FV.validate_csv n fn rows) (hf : e.suggested_fix = some f) :
    pyStrip f = f := by
  rcases mem_validate_cases he with hd | hro | ⟨p, _, ht | hw | hr⟩
  · rcases mem_check_duplicates hd with ⟨_, hnone⟩
    rw [hf] at hnone
    cases hnone
  · rcases mem_check_row_order hro with ⟨_, hnone⟩
    rw [hf] at hnone
    cases hnone
  · rcases mem_check_tags ht with ⟨_, _, _, hne, rfl⟩
    unfold FV.tagsErr at hf
    simp only [Option.some.injEq] at hf
    subst hf
    have hstrip : ∀ x ∈ FV.sortedTagsOf (p.2 "tags".data), pyStrip x = x := by
      intro x hx
      rcases List.mem_map.mp
        ((mem_pySorted strLeB x (FV.tagsOf (p.2 "tags".data))).mp hx) with
        ⟨y, _, rfl⟩
      exact pyStrip_idem y
    obtain ⟨x0, hx0, hx0ne⟩ :
        ∃ x ∈ FV.sortedTagsOf (p.2 "tags".data), x ≠ [] := by
      by_contra hall
      push_neg at hall
      have hallt : ∀ x ∈ FV.tagsOf (p.2 "tags".data), x = [] := by
        intro x hx
        exact hall x ((mem_pySorted strLeB x _).mpr hx)
      exact hne (pySorted_strLeB_of_all_nil hallt).symm
    exact joinComma_stripped _ hstrip
      (pairwise_pySorted strLeB strLeB_trans strLeB_total _) x0 hx0 hx0ne
  · rcases mem_check_whitespace hw with ⟨col, _, _, rfl⟩
    simp only [Option.some.injEq] at hf
    subst hf
    exact pyStrip_idem _
  · rcases mem_check_reference_order hr with ⟨_, hnone⟩
    rw [hf] at hnone
    cases hnone

theorem fixes_stripped {n : List Char} {fn : List (List Char)}
    {rows : List FV.Row} {k : Nat × List Char} {f : List Char}
    (h : FV.buildFixes (FV.validate_csv n fn rows) k = some f) :
    pyStrip f = f := by
  rcases buildFixes_some h with ⟨e, he, hsf, _, _⟩
  exact validate_fix_stripped he hsf

/-- After the cell-fix stage, every header-column cell is stripped: either
the cell got a (stripped) fix, or it never had a whitespace finding. -/
theorem fixRow_stripped {n : List Char} {fn : List (List Char)}
    {rows : List FV.Row} {p : Nat × FV.Row} (hp : p ∈ List.enumFrom 2 rows)
    (col : List Char) (hcol : col ∈ fn) :
    pyStrip (FV.fixRow fn (FV.buildFixes (FV.validate_csv n fn rows)) p col) =
      FV.fixRow fn (FV.buildFixes (FV.validate_csv n fn rows)) p col := by
  unfold FV.fixRow
  rw [if_pos hcol]
  cases hfx : FV.buildFixes (FV.validate_csv n fn rows) (p.1, col) with
  | some f =>
    simp only []
    exact fixes_stripped hfx
  | none =>
    simp only []
    by_contra hne
    have hws := @check_whitespace_mem_self n p.1 p.2 fn col
      hcol (fun h => hne h.symm)
    have hin := validate_mem_of_row hp (Or.inr (Or.inl hws))
    have hsome := buildFixes_isSome_of_mem hin
      (fun hq => (by decide : ¬("whitespace".data = "quoting".data)) hq) rfl
    rw [hfx] at hsome
    cases hsome

/-! ### `sort_row_references` -/

/-- The packed (nonempty, key-sorted) person references of a row. -/
def FV.packedPersonRefs (fr : FV.Row) : List (List Char) :=
  pySorted (fun a b => strLeB (FV.refKey a) (FV.refKey b))
    ((FV.person_cols.map fr).filter (fun r => !(pyStrip r).isEmpty))

/-- The packed (nonempty, key-sorted) event references of a row. -/
def FV.packedEventRefs (fr : FV.Row) : List (List Char) :=
  pySorted (fun a b => strLeB (FV.refKey a) (FV.refKey b))
    ((FV.event_cols.map fr).filter (fun r => !(pyStrip r).isEmpty))

theorem srr_person_map (fr : FV.Row) :
    FV.person_cols.map (FV.sort_row_references fr) =
      [(FV.packedPersonRefs fr).getD 0 [], (FV.packedPersonRefs fr).getD 1 [],
       (FV.packedPersonRefs fr).getD 2 [], (FV.packedPersonRefs fr).getD 3 [],
       (FV.packedPersonRefs fr).getD 4 []] := rfl

theorem srr_event_map (fr : FV.Row) :
    FV.event_cols.map (FV.sort_row_references fr) =
      [(FV.packedEventRefs fr).getD 0 [], (FV.packedEventRefs fr).getD 1 [],
       (FV.packedEventRefs fr).getD 2 [], (FV.packedEventRefs fr).getD 3 [],
       (FV.packedEventRefs fr).getD 4 []] := rfl

theorem srr_tags (fr : FV.Row) :
    FV.sort_row_references fr "tags".data = fr "tags".data := rfl

theorem packedPersonRefs_length_le (fr : FV.Row) :
    (FV.packedPersonRefs fr).length ≤ 5 := by
  unfold FV.packedPersonRefs
  rw [length_pySorted]
  exact le_trans (List.length_filter_le _ _) (by simp [FV.person_cols])

theorem packedEventRefs_length_le (fr : FV.Row) :
    (FV.packedEventRefs fr).length ≤ 5 := by
  unfold FV.packedEventRefs
  rw [length_pySorted]
  exact le_trans (List.length_filter_le _ _) (by simp [FV.event_cols])

theorem mem_packedPersonRefs {fr : FV.Row} {x : List Char}
    (hx : x ∈ FV.packedPersonRefs fr) :
    x ∈ (FV.person_cols.map fr).filter (fun r => !(pyStrip r).isEmpty) :=
  (mem_pySorted _ x _).mp hx

theorem mem_packedEventRefs {fr : FV.Row} {x : List Char}
    (hx : x ∈ FV.packedEventRefs fr) :
    x ∈ (FV.event_cols.map fr).filter (fun r => !(pyStrip r).isEmpty) :=
  (mem_pySorted _ x _).mp hx

/-- `sort_row_references row col`, written as a plain decision chain over
the ten slot columns (definitional unfolding of the embedding). -/
theorem srr_apply (fr : FV.Row) (col : List Char) :
    FV.sort_row_references fr col =
      if col = "related person 1".data then (FV.packedPersonRefs fr).getD 0 []
      else if col = "related person 2".data then
        (FV.packedPersonRefs fr).getD 1 []
      else if col = "related person 3".data then
        (FV.packedPersonRefs fr).getD 2 []
      else if col = "related person 4".data then
        (FV.packedPersonRefs fr).getD 3 []
      else if col = "related person 5".data then
        (FV.packedPersonRefs fr).getD 4 []
      else if col = "related event 1".data then
        (FV.packedEventRefs fr).getD 0 []
      else if col = "related event 2".data then
        (FV.packedEventRefs fr).getD 1 []
      else if col = "related event 3".data then
        (FV.packedEventRefs fr).getD 2 []
      else if col = "related event 4".data then
        (FV.packedEventRefs fr).getD 3 []
      else if col = "related event 5".data then
        (FV.packedEventRefs fr).getD 4 []
      else fr col := rfl

theorem packed_getD_stripped (fr : FV.Row) (cols : List (List Char)) (j : Nat)
    (h : ∀ c ∈ cols, pyStrip (fr c) = fr c) :
    pyStrip ((pySorted (fun a b => strLeB (FV.refKey a) (FV.refKey b))
        ((cols.map fr).filter (fun r => !(pyStrip r).isEmpty))).getD j []) =
      (pySorted (fun a b => strLeB (FV.refKey a) (FV.refKey b))
        ((cols.map fr).filter (fun r => !(pyStrip r).isEmpty))).getD j [] := by
  by_cases hj : j < (pySorted (fun a b => strLeB (FV.refKey a) (FV.refKey b))
      ((cols.map fr).filter (fun r => !(pyStrip r).isEmpty))).length
  · rw [List.getD_eq_getElem _ [] hj]
    have hm := List.getElem_mem hj
    have hm2 := (mem_pySorted _ _ _).mp hm
    rcases List.mem_map.mp (List.mem_filter.mp hm2).1 with ⟨c, hc, hfc⟩
    rw [← hfc]
    exact h c hc
  · rw [List.getD_eq_default _ [] (Nat.le_of_not_lt hj)]
    rfl

/-- `sort_row_references` keeps cells stripped: packed slots hold either a
(stripped) original reference cell or `""`; other columns are untouched. -/
theorem sort_row_references_stripped (fr : FV.Row)
    (h : ∀ c, (c ∈ FV.person_cols ∨ c ∈ FV.event_cols) → pyStrip (fr c) = fr c)
    (col : List Char) :
    pyStrip (FV.sort_row_references fr col) = FV.sort_row_references fr col ∨
      FV.sort_row_references fr col = fr col := by
  have hP : ∀ c ∈ FV.person_cols, pyStrip (fr c) = fr c :=
    fun c hc => h c (Or.inl hc)
  have hE : ∀ c ∈ FV.event_cols, pyStrip (fr c) = fr c :=
    fun c hc => h c (Or.inr hc)
  rw [srr_apply]
  split
  · exact Or.inl (packed_getD_stripped fr FV.person_cols 0 hP)
  · split
    · exact Or.inl (packed_getD_stripped fr FV.person_cols 1 hP)
    · split
      · exact Or.inl (packed_getD_stripped fr FV.person_cols 2 hP)
      · split
        · exact Or.inl (packed_getD_stripped fr FV.person_cols 3 hP)
        · split
          · exact Or.inl (packed_getD_stripped fr FV.person_cols 4 hP)
          · split
            · exact Or.inl (packed_getD_stripped fr FV.event_cols 0 hE)
            · split
              · exact Or.inl (packed_getD_stripped fr FV.event_cols 1 hE)
              · split
                · exact Or.inl (packed_getD_stripped fr FV.event_cols 2 hE)
                · split
                  · exact Or.inl (packed_getD_stripped fr FV.event_cols 3 hE)
                  · split
                    · exact Or.inl
                        (packed_getD_stripped fr FV.event_cols 4 hE)
                    · exact Or.inr rfl

theorem pack_getD_eq (p : List (List Char)) (h : p.length ≤ 5) :
    [p.getD 0 [], p.getD 1 [], p.getD 2 [], p.getD 3 [], p.getD 4 []] =
      p ++ List.replicate (5 - p.length) [] := by
  rcases p with _ | ⟨a, _ | ⟨b, _ | ⟨c, _ | ⟨d, _ | ⟨e, rest⟩⟩⟩⟩⟩
  · rfl
  · rfl
  · rfl
  · rfl
  · rfl
  · have hr : rest = [] := by
      rw [← List.length_eq_zero]
      simp only [List.length_cons] at h
      omega
    subst hr
    rfl

/-- A repacked row always passes `check_reference_order`: the packed slots
list the sorted nonempty references followed by `""` padding, so the
recomputed name list is already sorted. -/
theorem check_reference_order_srr (n : List Char) (rn : Nat) (fr : FV.Row) :
    FV.check_reference_order n rn (FV.sort_row_references fr) = [] := by
  unfold FV.check_reference_order
  simp only []
  rw [srr_person_map, srr_event_map,
    pack_getD_eq (FV.packedPersonRefs fr) (packedPersonRefs_length_le fr),
    pack_getD_eq (FV.packedEventRefs fr) (packedEventRefs_length_le fr),
    List.filter_append, List.filter_append]
  have hfp : (FV.packedPersonRefs fr).filter (fun r => !(pyStrip r).isEmpty) =
      FV.packedPersonRefs fr :=
    List.filter_eq_self.mpr (fun x hx =>
      (List.mem_filter.mp (mem_packedPersonRefs hx)).2)
  have hfe : (FV.packedEventRefs fr).filter (fun r => !(pyStrip r).isEmpty) =
      FV.packedEventRefs fr :=
    List.filter_eq_self.mpr (fun x hx =>
      (List.mem_filter.mp (mem_packedEventRefs hx)).2)
  have hrep : ∀ m : Nat, (List.replicate m ([] : List Char)).filter
      (fun r => !(pyStrip r).isEmpty) = [] := by
    intro m
    rw [List.filter_replicate]
    exact if_neg (by decide)
  rw [hfp, hfe, hrep, hrep, List.append_nil, List.append_nil]
  have hsortp : List.map FV.refKey (FV.packedPersonRefs fr) =
      pySorted strLeB (List.map FV.refKey (FV.packedPersonRefs fr)) := by
    refine (pySorted_of_pairwise strLeB ?_).symm
    refine List.pairwise_map.mpr ?_
    unfold FV.packedPersonRefs
    exact pairwise_pySorted (fun a b => strLeB (FV.refKey a) (FV.refKey b))
      (fun a b c => strLeB_trans _ _ _) (fun a b => strLeB_total _ _) _
  have hsorte : List.map FV.refKey (FV.packedEventRefs fr) =
      pySorted strLeB (List.map FV.refKey (FV.packedEventRefs fr)) := by
    refine (pySorted_of_pairwise strLeB ?_).symm
    refine List.pairwise_map.mpr ?_
    unfold FV.packedEventRefs
    exact pairwise_pySorted (fun a b => strLeB (FV.refKey a) (FV.refKey b))
      (fun a b c => strLeB_trans _ _ _) (fun a b => strLeB_total _ _) _
  rw [if_neg (fun hcon => hcon hsortp), if_neg (fun hcon => hcon hsorte)]
  rfl

/-! ### Row order after the sort -/

theorem firstDiff_self : ∀ (i : Nat) (xs : List (List Char)),
    FV.firstDiff i xs xs = none
  | _, [] => rfl
  | i, x :: xs => by
    unfold FV.firstDiff
    rw [if_pos rfl]
    exact firstDiff_self (i + 1) xs

theorem lowLe_trans (a b c : List Char) (h1 : FV.lowLe a b = true)
    (h2 : FV.lowLe b c = true) : FV.lowLe a c = true :=
  strLeB_trans _ _ _ h1 h2

theorem lowLe_total (a b : List Char) : (FV.lowLe a b || FV.lowLe b a) = true :=
  strLeB_total _ _

/-- A row list that is already sorted by the lower-cased second column
passes `check_row_order`. -/
theorem check_row_order_of_pairwise {n : List Char} {rows : List FV.Row}
    {fn : List (List Char)}
    (h : List.Pairwise (fun r1 r2 =>
      FV.lowLe (r1 (fn.getD 1 [])) (r2 (fn.getD 1 [])) = true) rows) :
    FV.check_row_order n rows fn = [] := by
  unfold FV.check_row_order
  split
  · rfl
  · simp only []
    have hpair : List.Pairwise (fun a b => FV.lowLe a b = true)
        (rows.map (fun r => r (fn.getD 1 []))) :=
      List.pairwise_map.mpr h
    rw [pySorted_of_pairwise FV.lowLe hpair, firstDiff_self]

/-! ### Re-checking a fixed tags cell -/

theorem pySplitAux_ne_nil : ∀ (fuel : Nat) (s : List Char),
    pySplitAux [','] fuel s ≠ []
  | 0, s => by simp [pySplitAux]
  | _ + 1, s => by
    unfold pySplitAux
    split <;> simp

theorem tagsOf_ne_nil (v : List Char) : FV.tagsOf v ≠ [] := by
  unfold FV.tagsOf pySplit
  intro h
  exact pySplitAux_ne_nil _ _ (List.map_eq_nil_iff.mp h)

theorem mem_tagsOf_stripped {v x : List Char} (hx : x ∈ FV.tagsOf v) :
    pyStrip x = x := by
  rcases List.mem_map.mp hx with ⟨y, _, rfl⟩
  exact pyStrip_idem y

theorem mem_tagsOf_comma_free {v x : List Char} (hx : x ∈ FV.tagsOf v) :
    ',' ∉ x := by
  rcases List.mem_map.mp hx with ⟨y, hy, rfl⟩
  intro hc
  exact mem_pySplit_comma hy (mem_pyStrip hc)

/-- Splitting the joined sorted tags and stripping each piece recovers the
sorted tags exactly. -/
theorem tagsOf_joinComma (ts : List (List Char)) (hts : ts ≠ [])
    (hstrip : ∀ x ∈ ts, pyStrip x = x) (hcf : ∀ x ∈ ts, ',' ∉ x) :
    FV.tagsOf (joinComma ts) = ts := by
  cases ts with
  | nil => exact absurd rfl hts
  | cons a t =>
    unfold FV.tagsOf joinComma
    rw [pySplit_comma_intercalate t a (hcf a (List.mem_cons_self a t))
      (fun x hx => hcf x (List.mem_cons_of_mem a hx))]
    simp only [List.map]
    rw [hstrip a (List.mem_cons_self a t), List.map_map]
    have hid : ∀ x ∈ t, (pyStrip ∘ (fun y => ' ' :: y)) x = id x := by
      intro x hx
      simp only [Function.comp, id]
      rw [pyStrip_space_cons]
      exact hstrip x (List.mem_cons_of_mem a hx)
    rw [List.map_congr_left hid, List.map_id]

/-- A `tags` cell holding the join of an already-sorted, stripped,
comma-free tag list passes `check_tags_ordering`. -/
theorem check_tags_joined {n : List Char} {rn : Nat} {fn : List (List Char)}
    {row : FV.Row} {ts : List (List Char)}
    (hcell : row "tags".data = joinComma ts) (hts : ts ≠ [])
    (hstrip : ∀ x ∈ ts, pyStrip x = x) (hcf : ∀ x ∈ ts, ',' ∉ x)
    (hpair : List.Pairwise (fun a b => strLeB a b = true) ts) :
    FV.check_tags_ordering n rn row fn = [] := by
  unfold FV.check_tags_ordering
  split
  · simp only []
    cases hg : ((row "tags".data).isEmpty || (pyStrip (row "tags".data)).isEmpty)
    · simp only [Bool.false_eq_true, if_false]
      have h1 : FV.tagsOf (row "tags".data) = ts := by
        rw [hcell]
        exact tagsOf_joinComma ts hts hstrip hcf
      have heq : (pySplit [','] (row "tags".data)).map pyStrip =
          pySorted strLeB ((pySplit [','] (row "tags".data)).map pyStrip) := by
        show FV.tagsOf (row "tags".data) =
          pySorted strLeB (FV.tagsOf (row "tags".data))
        rw [h1]
        exact (pySorted_of_pairwise strLeB hpair).symm
      rw [if_neg (fun hcon => hcon heq)]
    · simp only [if_true]
  · rfl

/-! ### Enumerated rows -/

theorem mem_of_mem_enumFrom {α : Type} {p : Nat × α} {n : Nat} {l : List α}
    (hp : p ∈ List.enumFrom n l) : p.2 ∈ l := by
  rcases p with ⟨i, x⟩
  obtain ⟨_, _, h3⟩ := List.mem_enumFrom hp
  rw [h3]
  exact List.getElem_mem _

theorem enumFrom_fst_eq {α : Type} : ∀ {n : Nat} {l : List α} {p q : Nat × α},
    p ∈ List.enumFrom n l → q ∈ List.enumFrom n l → p.1 = q.1 → p = q := by
  intro n l
  induction l generalizing n with
  | nil => intro p q hp _ _; cases hp
  | cons a t ih =>
    intro p q hp hq h1
    rw [show List.enumFrom n (a :: t) = (n, a) :: List.enumFrom (n + 1) t
      from rfl] at hp hq
    rcases List.mem_cons.mp hp with rfl | hp2
    · rcases List.mem_cons.mp hq with rfl | hq2
      · rfl
      · rcases q with ⟨j, y⟩
        obtain ⟨hj, _, _⟩ := List.mem_enumFrom hq2
        have hnj : n = j := h1
        omega
    · rcases List.mem_cons.mp hq with rfl | hq2
      · rcases p with ⟨j, y⟩
        obtain ⟨hj, _, _⟩ := List.mem_enumFrom hp2
        have hnj : j = n := h1
        omega
      · exact ih hp2 hq2 h1

/-! ### The rows produced by one fix pass -/

theorem countType_eq_zero {errs : List RV.ValidationError} {t : List Char} :
    FV.countType errs t = 0 ↔ ∀ e ∈ errs, ¬(e.error_type = t) := by
  unfold FV.countType
  rw [List.length_eq_zero, List.filter_eq_nil_iff]
  simp

theorem apply_fixes_mem {fn : List (List Char)} {rows : List FV.Row}
    {fixes : Nat × List Char → Option (List Char)} {row : FV.Row}
    (hrow : row ∈ FV.apply_fixes fn rows fixes) :
    ∃ p ∈ List.enumFrom 2 rows,
      row = FV.sort_row_references (FV.fixRow fn fixes p) := by
  unfold FV.apply_fixes at hrow
  simp only [] at hrow
  split at hrow
  · rw [List.map_map] at hrow
    rcases List.mem_map.mp hrow with ⟨p, hpm, rfl⟩
    exact ⟨p, hpm, rfl⟩
  · have hrow2 := (mem_pySorted _ row _).mp hrow
    rw [List.map_map] at hrow2
    rcases List.mem_map.mp hrow2 with ⟨p, hpm, rfl⟩
    exact ⟨p, hpm, rfl⟩

theorem check_row_order_apply_fixes (n : List Char) (fn : List (List Char))
    (rows : List FV.Row) (fixes : Nat × List Char → Option (List Char)) :
    FV.check_row_order n (FV.apply_fixes fn rows fixes) fn = [] := by
  unfold FV.apply_fixes
  simp only []
  split
  · rename_i hguard
    unfold FV.check_row_order
    split
    · rfl
    · rename_i hcon
      exfalso
      apply hcon
      rcases Bool.or_eq_true_iff.mp hguard with h | h
      · exact Bool.or_eq_true_iff.mpr (Or.inl h)
      · refine Bool.or_eq_true_iff.mpr (Or.inr (decide_eq_true ?_))
        have := of_decide_eq_true h
        omega
  · exact check_row_order_of_pairwise (pairwise_pySorted
      (fun r1 r2 : FV.Row => FV.lowLe (r1 (fn.getD 1 [])) (r2 (fn.getD 1 [])))
      (fun a b c h1 h2 => lowLe_trans _ _ _ h1 h2)
      (fun a b => lowLe_total _ _) _)

/-- After one fix pass, every header cell of every row is stripped. -/
theorem after_pass_stripped {csv_name : List Char}
    {fieldnames : List (List Char)} {rows : List FV.Row}
    (href : ∀ c, (c ∈ FV.person_cols ∨ c ∈ FV.event_cols) → c ∈ fieldnames)
    {row : FV.Row}
    (hrow : row ∈ FV.apply_fixes fieldnames rows
      (FV.buildFixes (FV.validate_csv csv_name fieldnames rows)))
    {col : List Char} (hcol : col ∈ fieldnames) :
    pyStrip (row col) = row col := by
  obtain ⟨q, hq, rfl⟩ := apply_fixes_mem hrow
  rcases sort_row_references_stripped
      (FV.fixRow fieldnames
        (FV.buildFixes (FV.validate_csv csv_name fieldnames rows)) q)
      (fun c hc => fixRow_stripped hq c (href c hc)) col with h | h
  · exact h
  · rw [h]
    exact fixRow_stripped hq col hcol

theorem sortedTagsOf_ne_nil (v : List Char) : FV.sortedTagsOf v ≠ [] := by
  unfold FV.sortedTagsOf
  intro h
  have hlen := length_pySorted strLeB (FV.tagsOf v)
  rw [h] at hlen
  exact tagsOf_ne_nil v (List.length_eq_zero.mp hlen.symm)

/-- After one fix pass, under the hypothesis that no original `tags` cell
carried surrounding whitespace, a fixed row passes `check_tags_ordering`:
the only fix stored under the `tags` key is then the tag-sorting fix
itself, whose join re-splits to the already-sorted tags. -/
theorem check_tags_after (csv_name : List Char) (fieldnames : List (List Char))
    (rows : List FV.Row)
    (htags : ∀ row ∈ rows, pyStrip (row "tags".data) = row "tags".data)
    {q : Nat × FV.Row} (hq : q ∈ List.enumFrom 2 rows) (rn : Nat) :
    FV.check_tags_ordering csv_name rn
      (FV.sort_row_references (FV.fixRow fieldnames
        (FV.buildFixes (FV.validate_csv csv_name fieldnames rows)) q))
      fieldnames = [] := by
  by_cases hfn : "tags".data ∈ fieldnames
  case neg =>
    unfold FV.check_tags_ordering
    rw [if_neg hfn]
  case pos =>
  have hcell : FV.sort_row_references (FV.fixRow fieldnames
      (FV.buildFixes (FV.validate_csv csv_name fieldnames rows)) q)
      "tags".data =
      FV.fixRow fieldnames
        (FV.buildFixes (FV.validate_csv csv_name fieldnames rows)) q
        "tags".data := srr_tags _
  have hfr : FV.fixRow fieldnames
      (FV.buildFixes (FV.validate_csv csv_name fieldnames rows)) q
      "tags".data =
      match FV.buildFixes (FV.validate_csv csv_name fieldnames rows)
          (q.1, "tags".data) with
      | some f => f
      | none => q.2 "tags".data := by
    unfold FV.fixRow
    rw [if_pos hfn]
  cases hfx : FV.buildFixes (FV.validate_csv csv_name fieldnames rows)
      (q.1, "tags".data) with
  | some f =>
    rw [hfx] at hfr
    simp only [] at hfr
    obtain ⟨e0, he0, hsf, hk, _⟩ := buildFixes_some hfx
    rcases mem_validate_cases he0 with hd | hro | ⟨pq, hpq, ht2 | hw2 | hr2⟩
    · rw [(mem_check_duplicates hd).2] at hsf
      cases hsf
    · rw [(mem_check_row_order hro).2] at hsf
      cases hsf
    · rcases mem_check_tags ht2 with ⟨_, _, _, _, rfl⟩
      have hq1 : q.1 = pq.1 := by
        have h := congrArg Prod.fst hk
        exact h
      have hpqq : pq = q := enumFrom_fst_eq hpq hq hq1.symm
      subst hpqq
      have hff : f = joinComma (FV.sortedTagsOf (pq.2 "tags".data)) := by
        have := hsf.symm
        simp only [FV.tagsErr, Option.some.injEq] at this
        exact this
      refine @check_tags_joined csv_name rn fieldnames _
        (FV.sortedTagsOf (pq.2 "tags".data))
        ?_ (sortedTagsOf_ne_nil _) ?_ ?_
        (pairwise_pySorted strLeB strLeB_trans strLeB_total _)
      · rw [hcell, hfr, hff]
      · intro x hx
        exact mem_tagsOf_stripped ((mem_pySorted strLeB x _).mp hx)
      · intro x hx
        exact mem_tagsOf_comma_free ((mem_pySorted strLeB x _).mp hx)
    · rcases mem_check_whitespace hw2 with ⟨col, _, hne2, rfl⟩
      have hq1 : q.1 = pq.1 := by
        have h := congrArg Prod.fst hk
        exact h
      have hpqq : pq = q := enumFrom_fst_eq hpq hq hq1.symm
      have hcol : "tags".data = col := by
        have h := congrArg Prod.snd hk
        exact h
      rw [← hcol, hpqq] at hne2
      exact absurd (htags q.2 (mem_of_mem_enumFrom hq)).symm hne2
    · rw [(mem_check_reference_order hr2).2] at hsf
      cases hsf
  | none =>
    rw [hfx] at hfr
    simp only [] at hfr
    by_contra hne0
    obtain ⟨e, he⟩ := List.exists_mem_of_ne_nil _ hne0
    rcases mem_check_tags he with ⟨_, hc1, hc2, hc3, _⟩
    rw [hcell, hfr] at hc1 hc2 hc3
    have hself := @check_tags_mem_self csv_name q.1 q.2 fieldnames
      hfn hc1 hc2 hc3
    have hin := validate_mem_of_row hq (Or.inl hself)
    have hsome := buildFixes_isSome_of_mem hin
      (fun hqt => (by decide :
        ¬("tags_not_sorted".data = "quoting".data)) hqt) rfl
    have hsome2 : (FV.buildFixes (FV.validate_csv csv_name fieldnames rows)
        (q.1, "tags".data)).isSome = true := hsome
    rw [hfx] at hsome2
    cases hsome2

/-! ### C8 -/

/-- A header carrying all ten reference slots plus guid/name/tags. -/
def c8Fieldnames : List (List Char) :=
  ["guid".data, "name".data, "tags".data] ++ FV.person_cols ++ FV.event_cols

/-- A row whose `tags` cell is both unsorted and padded with a leading
space — the two fixes collide on the `(row, "tags")` key. -/
def c8Row : FV.Row := fun col =>
  if col = "guid".data then "g1".data
  else if col = "name".data then "X".data
  else if col = "tags".data then " b, a".data
  else []

set_option maxRecDepth 10000 in
/-- C8 — counterexample: auto-fix is *not* idempotent.  For the row with
tags cell `" b, a"` the validator records the tag-sorting fix `"a, b"`
and then the whitespace fix `"b, a"` under the same `(2, "tags")` key;
the whitespace fix overwrites the tag fix, so the rewritten table still
has exactly one `tags_not_sorted` finding on the second pass. -/
theorem C8_counterexample :
    FV.countType
      (FV.validate_csv "qa.csv".data c8Fieldnames
        (FV.auto_fix_pass "qa.csv".data c8Fieldnames [c8Row]))
      "tags_not_sorted".data = 1 := by
  decide

/-- C8 (amended) — after one validate-and-fix pass over a nonempty table
whose header contains the ten reference slots, re-validation yields zero
`whitespace`, `row_order` and `reference_order` findings, and zero
`tags_not_sorted` findings provided no original `tags` cell carried
surrounding whitespace (otherwise the whitespace fix can overwrite the
tag-sorting fix under the shared `(row, column)` key — see the
counterexample). -/
theorem C8_amended_autofix (csv_name : List Char)
    (fieldnames : List (List Char)) (rows : List FV.Row) (hrows : rows ≠ [])
    (href : ∀ c ∈ FV.person_cols ++ FV.event_cols, c ∈ fieldnames) :
    FV.countType (FV.validate_csv csv_name fieldnames
        (FV.auto_fix_pass csv_name fieldnames rows)) "whitespace".data = 0 ∧
      FV.countType (FV.validate_csv csv_name fieldnames
        (FV.auto_fix_pass csv_name fieldnames rows)) "row_order".data = 0 ∧
      FV.countType (FV.validate_csv csv_name fieldnames
        (FV.auto_fix_pass csv_name fieldnames rows)) "reference_order".data
        = 0 ∧
      ((∀ row ∈ rows, pyStrip (row "tags".data) = row "tags".data) →
        FV.countType (FV.validate_csv csv_name fieldnames
          (FV.auto_fix_pass csv_name fieldnames rows)) "tags_not_sorted".data
          = 0) := by
  have href2 : ∀ c, (c ∈ FV.person_cols ∨ c ∈ FV.event_cols) →
      c ∈ fieldnames :=
    fun c hc => href c (List.mem_append.mpr hc)
  unfold FV.auto_fix_pass
  simp only []
  cases hemp : (FV.validate_csv csv_name fieldnames rows).isEmpty with
  | true =>
    have h0 : FV.validate_csv csv_name fieldnames rows = [] :=
      List.isEmpty_iff.mp hemp
    rw [if_pos rfl, h0]
    exact ⟨rfl, rfl, rfl, fun _ => rfl⟩
  | false =>
    rw [if_neg (by decide : ¬(false = true))]
    refine ⟨?_, ?_, ?_, ?_⟩
    · apply countType_eq_zero.mpr
      intro e he hty
      rcases mem_validate_cases he with hd | hro | ⟨p, hp, ht | hw | hr⟩
      · rw [(mem_check_duplicates hd).1] at hty
        exact (by decide : ¬("duplicate".data = "whitespace".data)) hty
      · rw [(mem_check_row_order hro).1] at hty
        exact (by decide : ¬("row_order".data = "whitespace".data)) hty
      · rcases mem_check_tags ht with ⟨_, _, _, _, rfl⟩
        exact (by decide : ¬("tags_not_sorted".data = "whitespace".data)) hty
      · rcases mem_check_whitespace hw with ⟨col, hcol, hne, _⟩
        exact hne
          (after_pass_stripped href2 (mem_of_mem_enumFrom hp) hcol).symm
      · rw [(mem_check_reference_order hr).1] at hty
        exact (by decide : ¬("reference_order".data = "whitespace".data)) hty
    · apply countType_eq_zero.mpr
      intro e he hty
      rcases mem_validate_cases he with hd | hro | ⟨p, hp, ht | hw | hr⟩
      · rw [(mem_check_duplicates hd).1] at hty
        exact (by decide : ¬("duplicate".data = "row_order".data)) hty
      · rw [check_row_order_apply_fixes] at hro
        cases hro
      · rcases mem_check_tags ht with ⟨_, _, _, _, rfl⟩
        exact (by decide : ¬("tags_not_sorted".data = "row_order".data)) hty
      · rcases mem_check_whitespace hw with ⟨_, _, _, rfl⟩
        exact (by decide : ¬("whitespace".data = "row_order".data)) hty
      · rw [(mem_check_reference_order hr).1] at hty
        exact (by decide : ¬("reference_order".data = "row_order".data)) hty
    · apply countType_eq_zero.mpr
      intro e he hty
      rcases mem_validate_cases he with hd | hro | ⟨p, hp, ht | hw | hr⟩
      · rw [(mem_check_duplicates hd).1] at hty
        exact (by decide : ¬("duplicate".data = "reference_order".data)) hty
      · rw [(mem_check_row_order hro).1] at hty
        exact (by decide : ¬("row_order".data = "reference_order".data)) hty
      · rcases mem_check_tags ht with ⟨_, _, _, _, rfl⟩
        exact (by decide :
          ¬("tags_not_sorted".data = "reference_order".data)) hty
      · rcases mem_check_whitespace hw with ⟨_, _, _, rfl⟩
        exact (by decide : ¬("whitespace".data = "reference_order".data)) hty
      · obtain ⟨q, hq, hsr⟩ := apply_fixes_mem (mem_of_mem_enumFrom hp)
        rw [hsr, check_reference_order_srr] at hr
        cases hr
    · intro htags
      apply countType_eq_zero.mpr
      intro e he hty
      rcases mem_validate_cases he with hd | hro | ⟨p, hp, ht | hw | hr⟩
      · rw [(mem_check_duplicates hd).1] at hty
        exact (by decide : ¬("duplicate".data = "tags_not_sorted".data)) hty
      · rw [(mem_check_row_order hro).1] at hty
        exact (by decide : ¬("row_order".data = "tags_not_sorted".data)) hty
      · obtain ⟨q, hq, hsr⟩ := apply_fixes_mem (mem_of_mem_enumFrom hp)
        rw [hsr] at ht
        rw [check_tags_after csv_name fieldnames rows htags hq p.1] at ht
        cases ht
      · rcases mem_check_whitespace hw with ⟨_, _, _, rfl⟩
        exact (by decide : ¬("whitespace".data = "tags_not_sorted".data)) hty
      · rw [(mem_check_reference_order hr).1] at hty
        exact (by decide :
          ¬("reference_order".data = "tags_not_sorted".data)) hty

/-- Witness for the amended C8 theorem on a concrete one-row table. -/
theorem C8_amended_autofix_witness :
    FV.countType (FV.validate_csv "qa.csv".data c8Fieldnames
        (FV.auto_fix_pass "qa.csv".data c8Fieldnames [c8Row]))
        "whitespace".data = 0 ∧
      FV.countType (FV.validate_csv "qa.csv".data c8Fieldnames
        (FV.auto_fix_pass "qa.csv".data c8Fieldnames [c8Row]))
        "row_order".data = 0 ∧
      FV.countType (FV.validate_csv "qa.csv".data c8Fieldnames
        (FV.auto_fix_pass "qa.csv".data c8Fieldnames [c8Row]))
        "reference_order".data = 0 ∧
      ((∀ row ∈ [c8Row], pyStrip (row "tags".data) = row "tags".data) →
        FV.countType (FV.validate_csv "qa.csv".data c8Fieldnames
          (FV.auto_fix_pass "qa.csv".data c8Fieldnames [c8Row]))
          "tags_not_sorted".data = 0) :=
  C8_amended_autofix "qa.csv".data c8Fieldnames [c8Row]
    (List.cons_ne_nil _ _) (by decide)
